import Mathlib

/-!
# mt19937_64_5.c — a shallow embedding

The 64-bit Mersenne Twister with a five-term recurrence
(`src/prng/20200129/mt19937_64_5.c`).  `unsigned long long` values are natural
numbers below `2^64`; every operation that can leave that range in C is reduced
`% 2^64` here.  The `int` cursor `mti` and the `int` loop counters never become
negative, so they are natural numbers too.  The global array `mt[NN]` is a list of
length `NN`, read and written at `Nat` indices through `rd` and `wr`.
-/

namespace MT64

/-! ## Constants (lines 47–62) -/

abbrev NN : Nat := 312
abbrev M0 : Nat := 63
abbrev M1 : Nat := 151
abbrev M2 : Nat := 224

abbrev MATRIX_A : Nat := 0xB3815B624FC82E2F

abbrev UMASK : Nat := 0xFFFFFFFF80000000
abbrev LMASK : Nat := 0x7FFFFFFF

abbrev MASK_B : Nat := 0x599CFCBFCA660000
abbrev MASK_C : Nat := 0xFFFAAFFE00000000
abbrev UU : Nat := 26
abbrev SS : Nat := 17
abbrev TT : Nat := 33
abbrev LL : Nat := 39

/-- Number of values of an `unsigned long long`. -/
abbrev W64 : Nat := 2 ^ 64

/-! ## The state (lines 64–65) -/

/-- Contents of `static unsigned long long mt[NN]`: a list of exactly `NN` words. -/
abbrev Words : Type := { l : List Nat // l.length = NN }

/-- Read `mt[i]`.  An index outside the array reads as `0`; the program never uses one. -/
def rd (mt : Words) (i : Nat) : Nat :=
  mt.val.getD i 0

/-- Assignment `mt[i] = v`.  An index outside the array writes nothing. -/
def wr (mt : Words) (i : Nat) (v : Nat) : Words :=
  ⟨mt.val.set i v, by rw [List.length_set]; exact mt.property⟩

/-- The two globals `mt` and `mti`. -/
structure State where
  mt : Words
  mti : Nat

/-- State at program start: `mt` is zero-initialised static storage, `mti = NN+1`. -/
def initState : State :=
  { mt := ⟨List.replicate NN 0, List.length_replicate NN 0⟩, mti := NN + 1 }

/-! ## Loops -/

/-- The loop `for (i = lo; <n more iterations>; i++) body`: runs `body` at
`lo, lo+1, …, lo+n-1`, in that order. -/
def forLoop {σ : Type} (body : Nat → σ → σ) : Nat → Nat → σ → σ
  | _, 0, s => s
  | lo, n + 1, s => forLoop body (lo + 1) n (body lo s)

/-- The loop `for (i = lo; i < hi; i++) body`, whose body does not assign `i`. -/
def forRange {σ : Type} (body : Nat → σ → σ) (lo hi : Nat) (s : σ) : σ :=
  forLoop body lo (hi - lo) s

/-! ## `sgenrand` (lines 67–79) -/

/-- The `int` product `789 * (mti+1)` of line 76, as a mathematical integer. -/
def perturbation (mti : Nat) : Nat := 789 * (mti + 1)

/-- Body of the loop of `sgenrand` (lines 71–76) at loop counter `mti`, acting on the
array and on the local `seed`. -/
def sgenrand_body (mti : Nat) (s : Words × Nat) : Words × Nat :=
  let seed1 := (9797719289936477 * s.2 + 1234567) % W64
  let ux := seed1 &&& 0xFFFFFFFF00000000
  let seed2 := (9797719289936477 * seed1 + 1234567) % W64
  let lx := seed2 >>> 32
  let mt1 := wr s.1 mti (ux ||| lx)
  let mt2 := wr mt1 mti ((rd mt1 mti + perturbation mti % W64) % W64)
  (mt2, seed2)

/-- The function `sgenrand(seed)`.  The loop counts with the global `mti` from `0` up to
`NN`; the last statement sets `mti = 0`. -/
def sgenrand (seed : Nat) (g : State) : State :=
  { mt := (forRange sgenrand_body 0 NN (g.mt, seed)).1, mti := 0 }

/-! ## `forward_state` (lines 81–115) -/

/-- The local array `mag01[2] = {0, MATRIX_A}`. -/
def mag01 : List Nat := [0, MATRIX_A]

/-- The three statements that every section of `forward_state` repeats, for the word
`i`, its successor `nxt` and the three tap indices `t0 t1 t2`:
`x = (mt[i]&UMASK) | (mt[nxt]&LMASK); mt[i] = (x >> 1) ^ mag01[x&1];
mt[i] ^= mt[t0] ^ mt[t1] ^ mt[t2];`. -/
def twist_at (i nxt t0 t1 t2 : Nat) (mt : Words) : Words :=
  let x := (rd mt i &&& UMASK) ||| (rd mt nxt &&& LMASK)
  let mt1 := wr mt i ((x >>> 1) ^^^ mag01.getD (x &&& 1) 0)
  wr mt1 i (rd mt1 i ^^^ ((rd mt1 t0 ^^^ rd mt1 t1) ^^^ rd mt1 t2))

/-- Body of the first loop (lines 91–93). -/
def twist_body0 (i : Nat) (mt : Words) : Words :=
  twist_at i (i + 1) (i + M0) (i + M1) (i + M2) mt

/-- Body of the second loop (lines 96–98). -/
def twist_body1 (i : Nat) (mt : Words) : Words :=
  twist_at i (i + 1) (i + M0) (i + M1) (i + M2 - NN) mt

/-- Body of the third loop (lines 101–103). -/
def twist_body2 (i : Nat) (mt : Words) : Words :=
  twist_at i (i + 1) (i + M0) (i + M1 - NN) (i + M2 - NN) mt

/-- Body of the fourth loop (lines 106–108). -/
def twist_body3 (i : Nat) (mt : Words) : Words :=
  twist_at i (i + 1) (i + M0 - NN) (i + M1 - NN) (i + M2 - NN) mt

/-- Lines 90–112 of `forward_state`: the four loops, which share the counter `i`, and
the statements for the last word. -/
def twist (mt : Words) : Words :=
  let mt1 := forRange twist_body0 0 (NN - M2) mt
  let mt2 := forRange twist_body1 (NN - M2) (NN - M1) mt1
  let mt3 := forRange twist_body2 (NN - M1) (NN - M0) mt2
  let mt4 := forRange twist_body3 (NN - M0) (NN - 1) mt3
  twist_at (NN - 1) 0 (M0 - 1) (M1 - 1) (M2 - 1) mt4

/-- The function `forward_state()`. -/
def forward_state (g : State) : State :=
  let g1 := if g.mti = NN + 1 then sgenrand 987654321 g else g
  { mt := twist g1.mt, mti := 0 }

/-! ## Output functions (lines 117–172) -/

/-- The four tempering statements, which every output function repeats verbatim
(lines 124–127, 138–141, 152–155, 167–170). -/
def tempering (x : Nat) : Nat :=
  let x1 := x ^^^ (x >>> UU)
  let x2 := x1 ^^^ (((x1 <<< SS) % W64) &&& MASK_B)
  let x3 := x2 ^^^ (((x2 <<< TT) % W64) &&& MASK_C)
  x3 ^^^ (x3 >>> LL)

/-- Lines 121–122 (and 135–136, 149–150, 164–165): the state in which `mt[mti]` is read. -/
def refill (g : State) : State :=
  if NN ≤ g.mti then forward_state g else g

/-- The function `genrand_uint64()`: the returned value and the state left behind. -/
def genrand_uint64 (g : State) : Nat × State :=
  let g1 := refill g
  let x := rd g1.mt g1.mti
  (tempering x, { g1 with mti := g1.mti + 1 })

/-- The function `genrand_real1()` up to its `return` statement (lines 134–141): the
64-bit word `x` that the return expression `5.421010862427522170e-20 * (double)x`
converts, and the state left behind. -/
def genrand_real1_word (g : State) : Nat × State :=
  let g1 := refill g
  let x := rd g1.mt g1.mti
  (tempering x, { g1 with mti := g1.mti + 1 })

/-- The function `genrand_real2()` up to its `return` statement (lines 148–155): the
64-bit word `x` that the return expression `5.421010862427521568e-20 * (double)x`
converts, and the state left behind. -/
def genrand_real2_word (g : State) : Nat × State :=
  let g1 := refill g
  let x := rd g1.mt g1.mti
  (tempering x, { g1 with mti := g1.mti + 1 })

/-- The function `genrand_real3()` up to its `return` statement (lines 163–170): the
64-bit word `x` that the return expression `2.220446049250313081e-16 * ((x>>12) + 0.5)`
converts, and the state left behind. -/
def genrand_real3_word (g : State) : Nat × State :=
  let g1 := refill g
  let x := rd g1.mt g1.mti
  (tempering x, { g1 with mti := g1.mti + 1 })

/-! ## Callers -/

/-- A caller that invokes `genrand_uint64()` `n` times in a row: the values returned, in
order, and the state left behind. -/
def draw_n : Nat → State → List Nat × State
  | 0, g => ([], g)
  | n + 1, g =>
    let r := genrand_uint64 g
    let rest := draw_n n r.2
    (r.1 :: rest.1, rest.2)

/-- A call of one of the five public functions. -/
inductive Call where
  | sgenrand (seed : Nat)
  | genrand_uint64
  | genrand_real1
  | genrand_real2
  | genrand_real3

/-- Effect of one call on the generator state. -/
def Call.run : Call → State → State
  | Call.sgenrand seed, g => MT64.sgenrand seed g
  | Call.genrand_uint64, g => (MT64.genrand_uint64 g).2
  | Call.genrand_real1, g => (genrand_real1_word g).2
  | Call.genrand_real2, g => (genrand_real2_word g).2
  | Call.genrand_real3, g => (genrand_real3_word g).2

/-- Effect of a sequence of calls, made in list order. -/
def runCalls (cs : List Call) (g : State) : State :=
  cs.foldl (fun s c => c.run s) g

/-! ## Reference formulas of the specification -/

/-- The mix step `f` of the seeding formula:
`f(s) = (9797719289936477 * s + 1234567) mod 2^64`. -/
def seedMix (s : Nat) : Nat := (9797719289936477 * s + 1234567) % 2 ^ 64

/-- The word that the seeding formula gives for position `i` and seed `s0`. -/
def seedWord (s0 i : Nat) : Nat :=
  (((seedMix^[2 * i + 1] s0 &&& 0xFFFFFFFF00000000) ||| (seedMix^[2 * i + 2] s0 >>> 32))
    + 789 * (i + 1)) % 2 ^ 64

/-- The twist transform `T(a, b)` of the recurrence: with
`y = (a AND 0xFFFFFFFF80000000) OR (b AND 0x7FFFFFFF)`, the value
`(y >> 1) XOR (0xB3815B624FC82E2F if y is odd, else 0)`. -/
def mixT (a b : Nat) : Nat :=
  let y := (a &&& 0xFFFFFFFF80000000) ||| (b &&& 0x7FFFFFFF)
  (y >>> 1) ^^^ (if y % 2 = 1 then 0xB3815B624FC82E2F else 0)

/-- Step `i` of the single in-place loop by which the specification describes the twist,
every index taken modulo 312; all reads are from the array as it stands at step `i`. -/
def modStep (i : Nat) (w : Words) : Words :=
  wr w i (mixT (rd w i) (rd w ((i + 1) % 312))
    ^^^ rd w ((i + 63) % 312) ^^^ rd w ((i + 151) % 312) ^^^ rd w ((i + 224) % 312))

/-- The single loop of the specification: `modStep` for `i = 0, 1, …, 311`, in order. -/
def modTwist (w : Words) : Words :=
  forRange modStep 0 312 w

/-! ## The tempering statements, one at a time -/

/-- A tempering statement `x ^= (x >> k);`. -/
def temper_shr (k x : Nat) : Nat := x ^^^ (x >>> k)

/-- The masked left shift `(x << k) & m` on 64-bit words. -/
def shl_mask (k m x : Nat) : Nat := ((x <<< k) % W64) &&& m

/-- A tempering statement `x ^= (x << k) & m;`. -/
def temper_shl (k m x : Nat) : Nat := x ^^^ shl_mask k m x

/-! ## The sequence of words across one state advance -/

/-- The 624-word sequence `X` made of the words of a state followed by the words that
`forward_state` leaves: `X[k] = mt[k]` for `k < 312`, and `X[k]` is the new `mt[k-312]`
from there on. -/
def genSeq (g : State) (k : Nat) : Nat :=
  if k < NN then rd g.mt k else rd (forward_state g).mt (k - NN)

/-! ## Word-wise XOR of arrays -/

/-- Word-wise XOR of two arrays of 312 words. -/
def xorWords (a b : Words) : Words :=
  ⟨List.zipWith (fun x y => x ^^^ y) a.val b.val, by
    rw [List.length_zipWith, a.property, b.property, Nat.min_self]⟩

/-- The array of 312 zero words. -/
def zeroWords : Words :=
  ⟨List.replicate NN 0, List.length_replicate NN 0⟩

/-! ## Output streams -/

/-- The `k`-th value (counting from 0) that successive calls of `genrand_uint64()`
return, starting in state `g`. -/
def nth_output (k : Nat) (g : State) : Nat :=
  (genrand_uint64 (draw_n k g).2).1

/-! ## `forward_state` with bounds checks -/

/-- Read of `mt[i]` with a bounds check on the `int` index: `none` outside `0..NN-1`. -/
def rd_checked (mt : Words) (i : Int) : Option Nat :=
  if 0 ≤ i ∧ i < NN then some (rd mt i.toNat) else none

/-- Assignment `mt[i] = v` with a bounds check on the `int` index: `none` outside
`0..NN-1`. -/
def wr_checked (mt : Words) (i : Int) (v : Nat) : Option Words :=
  if 0 ≤ i ∧ i < NN then some (wr mt i.toNat v) else none

/-- Progress of a bounds-checked run of lines 90–112: the array, and the indices of the
words regenerated so far, in the order in which they were regenerated. -/
structure Run where
  mt : Words
  done : List Int

/-- The three statements of a section of `forward_state` (as in `twist_at`), with every
access to `mt` and to `mag01` bounds-checked and all index arithmetic done in `int`. -/
def twist_at_checked (i nxt t0 t1 t2 : Int) (r : Run) : Option Run := do
  let a ← rd_checked r.mt i
  let b ← rd_checked r.mt nxt
  let x := (a &&& UMASK) ||| (b &&& LMASK)
  let m ← mag01[x &&& 1]?
  let mt1 ← wr_checked r.mt i ((x >>> 1) ^^^ m)
  let c ← rd_checked mt1 i
  let v0 ← rd_checked mt1 t0
  let v1 ← rd_checked mt1 t1
  let v2 ← rd_checked mt1 t2
  let mt2 ← wr_checked mt1 i (c ^^^ ((v0 ^^^ v1) ^^^ v2))
  some { mt := mt2, done := r.done ++ [i] }

/-- The loop `for (; i < hi; i++) body` as a while loop that tests `i < hi` before each
iteration: `none` when the body fails or when `fuel` tests were not enough to leave
the loop; otherwise the final counter and run. -/
def loop_checked (hi : Int) (body : Int → Run → Option Run) : Nat → Int → Run → Option (Int × Run)
  | 0, _, _ => none
  | fuel + 1, i, r =>
    if i < hi then
      match body i r with
      | none => none
      | some r1 => loop_checked hi body fuel (i + 1) r1
    else some (i, r)

/-- Lines 90–112 of `forward_state` with bounds checks: the four loops, which share the
counter `i`, each allowed `fuel` loop tests, and the statements for the last word. -/
def twist_checked (fuel : Nat) (mt : Words) : Option Run := do
  let s0 ← loop_checked ((NN : Int) - M2)
    (fun i => twist_at_checked i (i + 1) (i + M0) (i + M1) (i + M2)) fuel 0 { mt := mt, done := [] }
  let s1 ← loop_checked ((NN : Int) - M1)
    (fun i => twist_at_checked i (i + 1) (i + M0) (i + M1) (i + M2 - NN)) fuel s0.1 s0.2
  let s2 ← loop_checked ((NN : Int) - M0)
    (fun i => twist_at_checked i (i + 1) (i + M0) (i + M1 - NN) (i + M2 - NN)) fuel s1.1 s1.2
  let s3 ← loop_checked ((NN : Int) - 1)
    (fun i => twist_at_checked i (i + 1) (i + M0 - NN) (i + M1 - NN) (i + M2 - NN)) fuel s2.1 s2.2
  twist_at_checked ((NN : Int) - 1) 0 ((M0 : Int) - 1) ((M1 : Int) - 1) ((M2 : Int) - 1) s3.2

/-- The function `forward_state()` with the bounds-checked twist: the state left behind
and the indices of the regenerated words, or `none` when an access was out of bounds or
a loop did not end within `fuel` tests. -/
def forward_state_checked (fuel : Nat) (g : State) : Option (State × List Int) :=
  let g1 := if g.mti = NN + 1 then sgenrand 987654321 g else g
  (twist_checked fuel g1.mt).map (fun r => ({ mt := r.mt, mti := 0 }, r.done))

/-! ## The type `double`

Values of type `double` are rational numbers; every operation computes the exact
result and rounds it with `to_double`, the rounding of IEEE-754 binary64 (53 significant
bits, least exponent `-1074`, round to nearest, ties to even).  Decimal constants and
conversions from `unsigned long long` are correctly rounded, and every intermediate
result is rounded to `double`.  No value here reaches the overflow threshold `2^1024`. -/

/-- Exponent of the unit in the last place of the binary64 format at magnitude `|q|`:
`⌊log₂ |q|⌋ - 52`, and `-1074` in the subnormal range. -/
def ulp_exp (q : ℚ) : ℤ :=
  max (Int.log 2 |q| - 52) (-1074)

/-- Nearest integer, ties to the even one. -/
def round_even (q : ℚ) : ℤ :=
  if q - ⌊q⌋ < 1 / 2 then ⌊q⌋
  else if 1 / 2 < q - ⌊q⌋ then ⌊q⌋ + 1
  else if ⌊q⌋ % 2 = 0 then ⌊q⌋ else ⌊q⌋ + 1

/-- Rounding to `double`: the multiple of `2 ^ ulp_exp q` nearest to `q`, ties to even. -/
def to_double (q : ℚ) : ℚ :=
  round_even (q / 2 ^ ulp_exp q) * 2 ^ ulp_exp q

/-- Value of `genrand_real1()` for the tempered word `x`:
`(5.421010862427522170e-20) * (double)x` (line 142). -/
def real1_value (x : Nat) : ℚ :=
  to_double (to_double (5421010862427522170 / 10 ^ 38) * to_double x)

/-- Value of `genrand_real2()` for the tempered word `x`:
`(5.421010862427521568e-20) * (double)x` (line 156). -/
def real2_value (x : Nat) : ℚ :=
  to_double (to_double (5421010862427521568 / 10 ^ 38) * to_double x)

/-- Value of `genrand_real3()` for the tempered word `x`:
`(2.220446049250313081e-16) * ((x>>12) + 0.5)` (line 171); the sum converts `x>>12` to
`double` and adds the constant `0.5`. -/
def real3_value (x : Nat) : ℚ :=
  to_double (to_double (2220446049250313081 / 10 ^ 34)
    * to_double (to_double ((x >>> 12 : Nat) : ℚ) + to_double (5 / 10)))

/-- The function `genrand_real1()`: the returned value and the state left behind. -/
def genrand_real1 (g : State) : ℚ × State :=
  let g1 := refill g
  let x := rd g1.mt g1.mti
  (real1_value (tempering x), { g1 with mti := g1.mti + 1 })

/-- The function `genrand_real2()`: the returned value and the state left behind. -/
def genrand_real2 (g : State) : ℚ × State :=
  let g1 := refill g
  let x := rd g1.mt g1.mti
  (real2_value (tempering x), { g1 with mti := g1.mti + 1 })

/-- The function `genrand_real3()`: the returned value and the state left behind. -/
def genrand_real3 (g : State) : ℚ × State :=
  let g1 := refill g
  let x := rd g1.mt g1.mti
  (real3_value (tempering x), { g1 with mti := g1.mti + 1 })

/-! ## Array and loop lemmas -/

theorem rd_wr (mt : Words) (i v j : Nat) :
    rd (wr mt i v) j = if j = i ∧ i < NN then v else rd mt j := by
  have hl := mt.property
  unfold rd wr
  simp only [List.getD_eq_getElem?_getD, List.getElem?_set]
  by_cases hji : j = i
  · subst hji
    by_cases hlt : j < NN
    · simp [hl, hlt]
    · have : mt.val[j]? = none := List.getElem?_eq_none (by omega)
      simp [hl, hlt, this]
  · have : ¬ i = j := fun h => hji h.symm
    simp [hji, this]

theorem words_ext (a b : Words) (h : ∀ i, i < NN → rd a i = rd b i) : a = b := by
  apply Subtype.ext
  apply List.ext_getElem (by rw [a.property, b.property])
  intro i h1 h2
  have hi : i < NN := by rw [← a.property]; exact h1
  have := h i hi
  unfold rd at this
  simpa [List.getD_eq_getElem?_getD, List.getElem?_eq_getElem h1, List.getElem?_eq_getElem h2]
    using this

theorem forLoop_succ_last {σ : Type} (body : Nat → σ → σ) (n : Nat) :
    ∀ (lo : Nat) (s : σ), forLoop body lo (n + 1) s = body (lo + n) (forLoop body lo n s) := by
  induction n with
  | zero => intro lo s; rfl
  | succ n ih =>
    intro lo s
    show forLoop body (lo + 1) (n + 1) (body lo s) = _
    rw [ih (lo + 1) (body lo s)]
    have : lo + 1 + n = lo + (n + 1) := by omega
    rw [this]; rfl

theorem forLoop_add {σ : Type} (body : Nat → σ → σ) (m : Nat) :
    ∀ (n lo : Nat) (s : σ),
      forLoop body lo (m + n) s = forLoop body (lo + m) n (forLoop body lo m s) := by
  intro n
  induction n with
  | zero => intro lo s; rfl
  | succ n ih =>
    intro lo s
    rw [← Nat.add_assoc, forLoop_succ_last, forLoop_succ_last, ih, Nat.add_assoc]

theorem forLoop_congr {σ : Type} (f g : Nat → σ → σ) (n : Nat) :
    ∀ (lo : Nat) (s : σ), (∀ i, lo ≤ i → i < lo + n → ∀ t, f i t = g i t) →
      forLoop f lo n s = forLoop g lo n s := by
  induction n with
  | zero => intro lo s _; rfl
  | succ n ih =>
    intro lo s h
    show forLoop f (lo + 1) n (f lo s) = forLoop g (lo + 1) n (g lo s)
    rw [h lo (Nat.le_refl lo) (by omega) s]
    exact ih (lo + 1) (g lo s) (fun i h1 h2 t => h i (by omega) (by omega) t)

/-! ## Seeding -/

theorem sgenrand_loop_inv (s0 : Nat) (mt : Words) (n : Nat) :
    (forLoop sgenrand_body 0 n (mt, s0)).2 = seedMix^[2 * n] s0 ∧
    ∀ i, rd (forLoop sgenrand_body 0 n (mt, s0)).1 i
      = if i < n ∧ i < NN then seedWord s0 i else rd mt i := by
  induction n with
  | zero => exact ⟨rfl, fun i => by simp [forLoop]⟩
  | succ n ih =>
    obtain ⟨ih2, ih1⟩ := ih
    rw [forLoop_succ_last]
    have h1 : seedMix^[2 * n + 1] s0 = seedMix (seedMix^[2 * n] s0) :=
      Function.iterate_succ_apply' seedMix (2 * n) s0
    have h2 : seedMix^[2 * n + 2] s0 = seedMix (seedMix^[2 * n + 1] s0) :=
      Function.iterate_succ_apply' seedMix (2 * n + 1) s0
    refine ⟨?_, ?_⟩
    · show seedMix (seedMix (forLoop sgenrand_body 0 n (mt, s0)).2) = _
      rw [ih2, ← h1, ← h2]
      rfl
    · intro i
      simp only [sgenrand_body, rd_wr, Nat.zero_add, ih2, perturbation]
      by_cases hin : i = n
      · subst hin
        by_cases hN : i < NN
        · simp only [hN, and_self, if_true, true_and, Nat.lt_succ_self, seedWord, h1, h2,
            seedMix, W64, Nat.add_mod_mod]
        · simp only [hN, and_false, if_false, ih1]
      · have e : (i < n + 1 ∧ i < NN) ↔ (i < n ∧ i < NN) := by omega
        simp only [hin, false_and, if_false, ih1, e]

theorem sgenrand_rd (s0 : Nat) (g : State) (i : Nat) (hi : i < NN) :
    rd (sgenrand s0 g).mt i = seedWord s0 i := by
  have := (sgenrand_loop_inv s0 g.mt NN).2 i
  simpa [sgenrand, forRange, hi] using this

/-! ## The twist -/

theorem wr_wr (mt : Words) (i a b : Nat) : wr (wr mt i a) i b = wr mt i b := by
  apply words_ext
  intro j _
  simp only [rd_wr]
  by_cases h : j = i ∧ i < NN <;> simp [h]

theorem mag01_getD (x : Nat) :
    mag01.getD (x &&& 1) 0 = if x % 2 = 1 then MATRIX_A else 0 := by
  rw [Nat.and_one_is_mod]
  rcases Nat.mod_two_eq_zero_or_one x with h | h <;> simp [h, mag01]

/-- The three statements of a section of `forward_state` amount to one assignment. -/
theorem twist_at_eq (i nxt t0 t1 t2 : Nat) (mt : Words) (hi : i < NN)
    (h0 : t0 ≠ i) (h1 : t1 ≠ i) (h2 : t2 ≠ i) :
    twist_at i nxt t0 t1 t2 mt =
      wr mt i (mixT (rd mt i) (rd mt nxt) ^^^ rd mt t0 ^^^ rd mt t1 ^^^ rd mt t2) := by
  simp only [twist_at, rd_wr, wr_wr, hi, h0, h1, h2, and_true, if_true, false_and, if_false,
    mag01_getD, Nat.xor_assoc, mixT]

theorem twist_at_eq_modStep (i nxt t0 t1 t2 : Nat) (mt : Words) (hi : i < 312)
    (hn : nxt = (i + 1) % 312) (h0 : t0 = (i + 63) % 312) (h1 : t1 = (i + 151) % 312)
    (h2 : t2 = (i + 224) % 312) :
    twist_at i nxt t0 t1 t2 mt = modStep i mt := by
  rw [twist_at_eq i nxt t0 t1 t2 mt hi (by omega) (by omega) (by omega)]
  subst hn h0 h1 h2
  rfl

theorem twist_body0_eq (i : Nat) (h : i < 88) (t : Words) : twist_body0 i t = modStep i t := by
  unfold twist_body0
  apply twist_at_eq_modStep <;> first | omega | (simp only [NN, M0, M1, M2]; omega)

theorem twist_body1_eq (i : Nat) (h1 : 88 ≤ i) (h : i < 161) (t : Words) :
    twist_body1 i t = modStep i t := by
  unfold twist_body1
  apply twist_at_eq_modStep <;> first | omega | (simp only [NN, M0, M1, M2]; omega)

theorem twist_body2_eq (i : Nat) (h1 : 161 ≤ i) (h : i < 249) (t : Words) :
    twist_body2 i t = modStep i t := by
  unfold twist_body2
  apply twist_at_eq_modStep <;> first | omega | (simp only [NN, M0, M1, M2]; omega)

theorem twist_body3_eq (i : Nat) (h1 : 249 ≤ i) (h : i < 311) (t : Words) :
    twist_body3 i t = modStep i t := by
  unfold twist_body3
  apply twist_at_eq_modStep <;> first | omega | (simp only [NN, M0, M1, M2]; omega)

theorem twist_eq_modTwist (mt : Words) : twist mt = modTwist mt := by
  have e0 : ∀ s, forRange twist_body0 0 (NN - M2) s = forLoop modStep 0 88 s := fun s =>
    forLoop_congr twist_body0 modStep 88 0 s (fun i _ h2 t => twist_body0_eq i (by omega) t)
  have e1 : ∀ s, forRange twist_body1 (NN - M2) (NN - M1) s = forLoop modStep 88 73 s := fun s =>
    forLoop_congr twist_body1 modStep 73 88 s
      (fun i h1 h2 t => twist_body1_eq i (by omega) (by omega) t)
  have e2 : ∀ s, forRange twist_body2 (NN - M1) (NN - M0) s = forLoop modStep 161 88 s := fun s =>
    forLoop_congr twist_body2 modStep 88 161 s
      (fun i h1 h2 t => twist_body2_eq i (by omega) (by omega) t)
  have e3 : ∀ s, forRange twist_body3 (NN - M0) (NN - 1) s = forLoop modStep 249 62 s := fun s =>
    forLoop_congr twist_body3 modStep 62 249 s
      (fun i h1 h2 t => twist_body3_eq i (by omega) (by omega) t)
  have e4 : ∀ s, twist_at (NN - 1) 0 (M0 - 1) (M1 - 1) (M2 - 1) s = forLoop modStep 311 1 s :=
    fun s => twist_at_eq_modStep 311 0 62 150 223 s (by omega) (by omega) (by omega) (by omega)
      (by omega)
  show twist_at (NN - 1) 0 (M0 - 1) (M1 - 1) (M2 - 1) _ = _
  rw [e4, e0, e1, e2, e3]
  show _ = forLoop modStep 0 (88 + 73 + 88 + 62 + 1) mt
  rw [forLoop_add, forLoop_add, forLoop_add, forLoop_add]

/-- C2: for every seeded state, `forward_state` leaves exactly the words that the single
loop with indices modulo 312 produces, and the cursor at 0. -/
theorem forward_state_eq_single_loop (g : State) (hc : g.mti ≤ 312) :
    (forward_state g).mt = modTwist g.mt ∧ (forward_state g).mti = 0 := by
  have h : ¬ g.mti = NN + 1 := by simp only [NN]; omega
  simp only [forward_state, h, if_false, twist_eq_modTwist, and_self]

theorem forward_state_eq_single_loop_witness :
    (State.mk initState.mt 312).mti ≤ 312 ∧
      ((forward_state (State.mk initState.mt 312)).mt = modTwist (State.mk initState.mt 312).mt ∧
        (forward_state (State.mk initState.mt 312)).mti = 0) :=
  ⟨by decide, forward_state_eq_single_loop (State.mk initState.mt 312) (by decide)⟩

/-! ## Tempering -/

theorem tempering_eq (x : Nat) :
    tempering x = temper_shr LL (temper_shl TT MASK_C (temper_shl SS MASK_B (temper_shr UU x))) :=
  rfl

theorem testBit_of_lt_W64 {x : Nat} (hx : x < W64) {j : Nat} (hj : 64 ≤ j) :
    x.testBit j = false :=
  Nat.testBit_lt_two_pow (Nat.lt_of_lt_of_le hx (Nat.pow_le_pow_right (by decide) hj))

theorem xor_xor_cancel (a b c : Nat) : (a ^^^ b) ^^^ (b ^^^ c) = a ^^^ c := by
  apply Nat.eq_of_testBit_eq
  intro i
  simp only [Nat.testBit_xor]
  cases a.testBit i <;> cases b.testBit i <;> cases c.testBit i <;> rfl

theorem shiftRight_xor (a b k : Nat) : (a ^^^ b) >>> k = a >>> k ^^^ b >>> k := by
  apply Nat.eq_of_testBit_eq
  intro i
  simp only [Nat.testBit_shiftRight, Nat.testBit_xor]

theorem shiftRight_le_self (x k : Nat) : x >>> k ≤ x := by
  rw [Nat.shiftRight_eq_div_pow]
  exact Nat.div_le_self x (2 ^ k)

theorem temper_shr_twice (k x : Nat) :
    temper_shr k (temper_shr k x) = x ^^^ (x >>> (k + k)) := by
  unfold temper_shr
  rw [shiftRight_xor, xor_xor_cancel, ← Nat.shiftRight_add]

theorem shiftRight_eq_zero_of_lt {x k : Nat} (hx : x < 2 ^ k) : x >>> k = 0 := by
  rw [Nat.shiftRight_eq_div_pow]
  exact Nat.div_eq_of_lt hx

theorem temper_shr_lt {k x : Nat} (hx : x < W64) : temper_shr k x < W64 := by
  unfold temper_shr
  apply Nat.xor_lt_two_pow hx
  exact Nat.lt_of_le_of_lt (shiftRight_le_self x k) hx

theorem shl_mask_xor (k m a b : Nat) :
    shl_mask k m (a ^^^ b) = shl_mask k m a ^^^ shl_mask k m b := by
  apply Nat.eq_of_testBit_eq
  intro i
  simp only [shl_mask, Nat.testBit_and, Nat.testBit_mod_two_pow, Nat.testBit_shiftLeft,
    Nat.testBit_xor]
  cases decide (i < 64) <;> cases decide (i ≥ k) <;> cases m.testBit i <;>
    cases a.testBit (i - k) <;> cases b.testBit (i - k) <;> rfl

theorem shl_mask_lt (k m x : Nat) : shl_mask k m x < W64 := by
  unfold shl_mask
  exact Nat.lt_of_le_of_lt Nat.and_le_left (Nat.mod_lt _ (by decide))

theorem temper_shl_lt {k m x : Nat} (hx : x < W64) : temper_shl k m x < W64 :=
  Nat.xor_lt_two_pow hx (shl_mask_lt k m x)

theorem temper_shl_twice (k m x : Nat) :
    temper_shl k m (temper_shl k m x) = x ^^^ shl_mask k m (shl_mask k m x) := by
  unfold temper_shl
  rw [shl_mask_xor, xor_xor_cancel]

theorem shl_mask_testBit (k m x i : Nat) :
    (shl_mask k m x).testBit i
      = (decide (i < 64) && (decide (k ≤ i) && x.testBit (i - k)) && m.testBit i) := by
  simp only [shl_mask, Nat.testBit_and, Nat.testBit_mod_two_pow, Nat.testBit_shiftLeft,
    ge_iff_le, Bool.and_assoc]

theorem shl_mask_twice_eq_zero (k m x : Nat) (hk : 32 ≤ k) :
    shl_mask k m (shl_mask k m x) = 0 := by
  apply Nat.eq_of_testBit_eq
  intro i
  rw [shl_mask_testBit, shl_mask_testBit, Nat.zero_testBit]
  by_cases h1 : i < 64
  · have h2 : ¬ k ≤ i - k := by omega
    simp [h2]
  · simp [h1]

theorem shl_mask_four_eq_zero (k m x : Nat) (hk : 16 ≤ k) :
    shl_mask k m (shl_mask k m (shl_mask k m (shl_mask k m x))) = 0 := by
  apply Nat.eq_of_testBit_eq
  intro i
  rw [shl_mask_testBit, shl_mask_testBit, shl_mask_testBit, shl_mask_testBit, Nat.zero_testBit]
  by_cases h1 : i < 64
  · have h2 : ¬ k ≤ i - k - k - k := by omega
    simp [h2]
  · simp [h1]

theorem temper_shr_four (k x : Nat) :
    temper_shr k (temper_shr k (temper_shr k (temper_shr k x)))
      = x ^^^ (x >>> (k + k + (k + k))) := by
  rw [temper_shr_twice, temper_shr_twice, shiftRight_xor, xor_xor_cancel, ← Nat.shiftRight_add]

theorem temper_shl_four (k m x : Nat) :
    temper_shl k m (temper_shl k m (temper_shl k m (temper_shl k m x)))
      = x ^^^ shl_mask k m (shl_mask k m (shl_mask k m (shl_mask k m x))) := by
  rw [temper_shl_twice, temper_shl_twice, shl_mask_xor, shl_mask_xor, xor_xor_cancel]

theorem bijOn_of_four (f : Nat → Nat) (S : Set Nat) (hm : Set.MapsTo f S S)
    (h4 : ∀ x ∈ S, f (f (f (f x))) = x) : Set.BijOn f S S :=
  have hinv : Set.InvOn (fun x => f (f (f x))) f S S := ⟨fun x hx => h4 x hx, fun x hx => h4 x hx⟩
  hinv.bijOn hm (fun _ hx => hm (hm (hm hx)))

theorem temper_shr_bijOn (k : Nat) (hk : 16 ≤ k) :
    Set.BijOn (temper_shr k) (Set.Iio W64) (Set.Iio W64) := by
  apply bijOn_of_four
  · intro x hx
    exact temper_shr_lt hx
  · intro x hx
    have hx' : x < 2 ^ (k + k + (k + k)) :=
      Nat.lt_of_lt_of_le hx (Nat.pow_le_pow_right (by decide) (by omega))
    rw [temper_shr_four, shiftRight_eq_zero_of_lt hx', Nat.xor_zero]

theorem temper_shl_bijOn (k m : Nat) (hk : 16 ≤ k) :
    Set.BijOn (temper_shl k m) (Set.Iio W64) (Set.Iio W64) := by
  apply bijOn_of_four
  · intro x hx
    exact temper_shl_lt hx
  · intro x _
    rw [temper_shl_four, shl_mask_four_eq_zero k m x hk, Nat.xor_zero]

/-- C6: tempering is a bijection of the 64-bit words: it maps them to 64-bit words, is
injective on them, and every 64-bit word is the tempering of one. -/
theorem tempering_bijective : Set.BijOn tempering (Set.Iio W64) (Set.Iio W64) := by
  have h : tempering = temper_shr LL ∘ temper_shl TT MASK_C ∘ temper_shl SS MASK_B
      ∘ temper_shr UU := rfl
  rw [h]
  exact (temper_shr_bijOn LL (by decide)).comp
    ((temper_shl_bijOn TT MASK_C (by decide)).comp
      ((temper_shl_bijOn SS MASK_B (by decide)).comp (temper_shr_bijOn UU (by decide))))

/-! ## Contracts of the public functions -/

/-- C1: after `sgenrand(s0)`, from any prior state, the cursor is 0 and word `i` is
`((f^(2i+1)(s0) AND 0xFFFFFFFF00000000) OR (f^(2i+2)(s0) >> 32)) + 789*(i+1) mod 2^64`;
the `int` product `789*(i+1)` is at most 246168, below `2^31`. -/
theorem sgenrand_formula (s0 : Nat) (g : State) (i : Fin NN) :
    (sgenrand s0 g).mti = 0 ∧
    rd (sgenrand s0 g).mt i
      = (((seedMix^[2 * i + 1] s0 &&& 0xFFFFFFFF00000000) ||| (seedMix^[2 * i + 2] s0 >>> 32))
          + 789 * (i + 1)) % 2 ^ 64 ∧
    perturbation i = 789 * (i + 1) ∧ perturbation i ≤ 246168 ∧ 246168 < 2 ^ 31 := by
  refine ⟨rfl, sgenrand_rd s0 g i i.isLt, rfl, ?_, by decide⟩
  have := i.isLt
  simp only [perturbation, NN] at *
  omega

theorem genrand_uint64_of_lt (mt : Words) (c : Nat) (hc : c < NN) :
    genrand_uint64 ⟨mt, c⟩ = (tempering (rd mt c), ⟨mt, c + 1⟩) := by
  have h : ¬ NN ≤ c := Nat.not_le.mpr hc
  simp only [genrand_uint64, refill, h, if_false]

theorem forward_state_seeded (mt : Words) (c : Nat) (hc : c ≤ NN) :
    forward_state ⟨mt, c⟩ = ⟨twist mt, 0⟩ := by
  have h : ¬ c = NN + 1 := by omega
  simp only [forward_state, h, if_false]

theorem genrand_uint64_at_NN (mt : Words) :
    genrand_uint64 ⟨mt, NN⟩
      = (tempering (rd (forward_state ⟨mt, NN⟩).mt 0), ⟨(forward_state ⟨mt, NN⟩).mt, 1⟩) := rfl

/-- C3: with the cursor at `c < 312`, `genrand_uint64` returns the tempered `mt[c]`, keeps
the words and moves the cursor to `c+1`; with the cursor at 312 it runs `forward_state`
once (which here is the twist of the current words, without reseeding), returns the
tempered new `mt[0]` and leaves the cursor at 1. -/
theorem genrand_uint64_contract (mt : Words) (c : Fin NN) :
    genrand_uint64 ⟨mt, c⟩ = (tempering (rd mt c), ⟨mt, c + 1⟩) ∧
    genrand_uint64 ⟨mt, NN⟩
      = (tempering (rd (forward_state ⟨mt, NN⟩).mt 0), ⟨(forward_state ⟨mt, NN⟩).mt, 1⟩) ∧
    forward_state ⟨mt, NN⟩ = ⟨twist mt, 0⟩ :=
  ⟨genrand_uint64_of_lt mt c c.isLt, genrand_uint64_at_NN mt,
    forward_state_seeded mt NN (Nat.le_refl NN)⟩

theorem refill_initState :
    refill initState = forward_state (sgenrand 987654321 initState) := rfl

theorem forward_state_sgenrand (s : Nat) (g : State) :
    forward_state (sgenrand s g) = ⟨twist (sgenrand s g).mt, 0⟩ :=
  forward_state_seeded (sgenrand s g).mt 0 (Nat.zero_le NN)

theorem sgenrand_eq (s : Nat) (g1 g2 : State) : sgenrand s g1 = sgenrand s g2 := by
  have h : (sgenrand s g1).mt = (sgenrand s g2).mt :=
    words_ext _ _ (fun i hi => by rw [sgenrand_rd s g1 i hi, sgenrand_rd s g2 i hi])
  show State.mk (sgenrand s g1).mt 0 = State.mk (sgenrand s g2).mt 0
  rw [h]

theorem genrand_uint64_initState (g : State) :
    genrand_uint64 initState = genrand_uint64 (forward_state (sgenrand 987654321 g)) := by
  rw [sgenrand_eq 987654321 g initState, forward_state_sgenrand]
  show _ = genrand_uint64 ⟨twist (sgenrand 987654321 initState).mt, 0⟩
  rw [genrand_uint64_of_lt _ 0 (by decide)]
  show (tempering (rd (refill initState).mt (refill initState).mti),
      State.mk (refill initState).mt ((refill initState).mti + 1)) = _
  rw [refill_initState, forward_state_sgenrand]

theorem draw_n_succ (n : Nat) (g : State) :
    draw_n (n + 1) g
      = ((genrand_uint64 g).1 :: (draw_n n (genrand_uint64 g).2).1,
          (draw_n n (genrand_uint64 g).2).2) := rfl

set_option maxRecDepth 100000 in
/-- C4, counterexample: the first value of the never-seeded generator is
16507824347756441254, the first value after `sgenrand(987654321)` is 2978381495107383073. -/
theorem lazy_seeding_first_value_differs :
    (draw_n 1 initState).1 = [16507824347756441254] ∧
    (draw_n 1 (sgenrand 987654321 initState)).1 = [2978381495107383073] ∧
    (draw_n 1 initState).1 ≠ (draw_n 1 (sgenrand 987654321 initState)).1 := by
  decide

/-- C4, amended: the never-seeded generator behaves as a generator on which
`sgenrand(987654321)` and then `forward_state()` were run: for every `n` the first `n`
values are the same, and after at least one draw the states are the same. -/
theorem lazy_seeding_eq_seed_then_twist (n : Nat) (g : State) :
    (draw_n n initState).1 = (draw_n n (forward_state (sgenrand 987654321 g))).1 ∧
    draw_n (n + 1) initState = draw_n (n + 1) (forward_state (sgenrand 987654321 g)) := by
  have h : ∀ m, draw_n (m + 1) initState
      = draw_n (m + 1) (forward_state (sgenrand 987654321 g)) := fun m => by
    rw [draw_n_succ, draw_n_succ, genrand_uint64_initState g]
  refine ⟨?_, h n⟩
  cases n with
  | zero => simp only [draw_n]
  | succ m => rw [h m]

/-- C5: `sgenrand(s)` leaves the same state whatever the state before it, so the values
drawn after it are the same too. -/
theorem sgenrand_deterministic (s : Nat) (g1 g2 : State) (n : Nat) :
    sgenrand s g1 = sgenrand s g2 ∧
    (draw_n n (sgenrand s g1)).1 = (draw_n n (sgenrand s g2)).1 := by
  refine ⟨sgenrand_eq s g1 g2, ?_⟩
  rw [sgenrand_eq s g1 g2]

/-- C7: every real-valued output leaves the state that `genrand_uint64` leaves from the
same starting state, and the 64-bit word `x` that its return expression converts to a
`double` is exactly the value `genrand_uint64` would have returned. -/
theorem real_outputs_consume_one_word (g : State) :
    genrand_real1_word g = genrand_uint64 g ∧
    genrand_real2_word g = genrand_uint64 g ∧
    genrand_real3_word g = genrand_uint64 g ∧
    genrand_real1 g = (real1_value (genrand_real1_word g).1, (genrand_real1_word g).2) ∧
    genrand_real2 g = (real2_value (genrand_real2_word g).1, (genrand_real2_word g).2) ∧
    genrand_real3 g = (real3_value (genrand_real3_word g).1, (genrand_real3_word g).2) :=
  ⟨rfl, rfl, rfl, rfl, rfl, rfl⟩

theorem draw_n_of_le (mt : Words) (k : Nat) :
    ∀ c, c + k ≤ NN →
      draw_n k ⟨mt, c⟩ = ((List.range' c k).map (fun i => tempering (rd mt i)), ⟨mt, c + k⟩) := by
  induction k with
  | zero => intro c _; rfl
  | succ k ih =>
    intro c hc
    rw [draw_n_succ, genrand_uint64_of_lt mt c (by omega)]
    simp only []
    rw [ih (c + 1) (by omega)]
    have e : c + 1 + k = c + (k + 1) := by omega
    rw [e]
    rfl

/-- C8: after `sgenrand(s)` the first 312 draws return the tempered seeded words
`mt[0], …, mt[311]` in order and change no word; the 313th draw runs `forward_state`
once on the seeded words (their twist, without reseeding), returns the tempered new
`mt[0]` and leaves the cursor at 1. -/
theorem first_313_draws (s : Nat) (g : State) (k : Fin (NN + 1)) :
    draw_n k (sgenrand s g)
      = ((List.range k).map (fun i => tempering (rd (sgenrand s g).mt i)),
          ⟨(sgenrand s g).mt, k⟩) ∧
    genrand_uint64 (draw_n NN (sgenrand s g)).2
      = (tempering (rd (forward_state (sgenrand s g)).mt 0),
          ⟨(forward_state (sgenrand s g)).mt, 1⟩) ∧
    forward_state (sgenrand s g) = ⟨twist (sgenrand s g).mt, 0⟩ := by
  have h : ∀ j, j ≤ NN → draw_n j (sgenrand s g)
      = ((List.range j).map (fun i => tempering (rd (sgenrand s g).mt i)),
          ⟨(sgenrand s g).mt, j⟩) := fun j hj => by
    have := draw_n_of_le (sgenrand s g).mt j 0 (by omega)
    rw [Nat.zero_add, ← List.range_eq_range'] at this
    exact this
  refine ⟨h k (Nat.le_of_lt_succ k.isLt), ?_, forward_state_sgenrand s g⟩
  rw [h NN (Nat.le_refl NN), forward_state_sgenrand, genrand_uint64_at_NN,
    forward_state_seeded _ NN (Nat.le_refl NN)]

theorem refill_mti_lt (g : State) : (refill g).mti < NN := by
  unfold refill
  by_cases h : NN ≤ g.mti
  · simp only [h, if_true, forward_state]
    decide
  · simp only [h, if_false]
    omega

theorem run_mti_le (c : Call) (g : State) : (c.run g).mti ≤ NN := by
  cases c with
  | sgenrand seed => exact Nat.zero_le NN
  | genrand_uint64 => exact refill_mti_lt g
  | genrand_real1 => exact refill_mti_lt g
  | genrand_real2 => exact refill_mti_lt g
  | genrand_real3 => exact refill_mti_lt g

theorem runCalls_snoc (cs : List Call) (c : Call) (g : State) :
    runCalls (cs ++ [c]) g = c.run (runCalls cs g) := by
  simp only [runCalls, List.foldl_append, List.foldl_cons, List.foldl_nil]

theorem reachable_mti_le (cs : List Call) : (runCalls cs initState).mti ≤ NN + 1 := by
  rcases List.eq_nil_or_concat cs with h | ⟨l, c, h⟩
  · subst h
    exact Nat.le_refl _
  · subst h
    rw [List.concat_eq_append, runCalls_snoc]
    exact Nat.le_succ_of_le (run_mti_le c _)

/-- C9: after every call made from the initial state the cursor is at most 312; before
every call the state `refill` gives, in which an output function reads `mt[mti]`, has
`mti < 312`, and it is the twisted state exactly when the cursor was 312 or 313. -/
theorem cursor_invariant (cs : List Call) (c : Call) :
    (runCalls (cs ++ [c]) initState).mti ≤ 312 ∧
    (refill (runCalls cs initState)).mti < 312 ∧
    refill (runCalls cs initState)
      = (if (runCalls cs initState).mti = 312 ∨ (runCalls cs initState).mti = 313
          then forward_state (runCalls cs initState) else runCalls cs initState) ∧
    (genrand_uint64 (runCalls cs initState)).1
      = tempering (rd (refill (runCalls cs initState)).mt (refill (runCalls cs initState)).mti) := by
  refine ⟨?_, refill_mti_lt _, ?_, rfl⟩
  · rw [runCalls_snoc]
    exact run_mti_le c _
  · have h := reachable_mti_le cs
    have e : (NN ≤ (runCalls cs initState).mti)
        ↔ ((runCalls cs initState).mti = 312 ∨ (runCalls cs initState).mti = 313) := by
      simp only [NN] at *
      omega
    simp only [refill, e]

/-- C10: with the cursor at the sentinel 313, `forward_state` gives what
`sgenrand(987654321)` followed by `forward_state` gives; with the cursor in `[0, 312]` it
twists the current words without reseeding; the cursor is 0 afterwards in both cases. -/
theorem forward_state_unseeded (mt : Words) (c : Fin (NN + 1)) :
    forward_state ⟨mt, NN + 1⟩ = forward_state (sgenrand 987654321 ⟨mt, NN + 1⟩) ∧
    forward_state ⟨mt, c⟩ = ⟨twist mt, 0⟩ ∧
    (forward_state ⟨mt, NN + 1⟩).mti = 0 ∧ (forward_state ⟨mt, c⟩).mti = 0 := by
  refine ⟨?_, forward_state_seeded mt c (Nat.le_of_lt_succ c.isLt), rfl, rfl⟩
  rw [forward_state_sgenrand]
  simp only [forward_state, if_true]

/-! ## The recurrence across generations -/

theorem modStep_rd (i : Nat) (w : Words) (j : Nat) :
    rd (modStep i w) j
      = if j = i ∧ i < NN then
          mixT (rd w i) (rd w ((i + 1) % 312)) ^^^ rd w ((i + 63) % 312)
            ^^^ rd w ((i + 151) % 312) ^^^ rd w ((i + 224) % 312)
        else rd w j := by
  unfold modStep
  rw [rd_wr]

theorem forLoop_modStep_rd_outside (n : Nat) :
    ∀ (lo : Nat) (w : Words) (j : Nat), (j < lo ∨ lo + n ≤ j) →
      rd (forLoop modStep lo n w) j = rd w j := by
  induction n with
  | zero => intro lo w j _; rfl
  | succ n ih =>
    intro lo w j h
    show rd (forLoop modStep (lo + 1) n (modStep lo w)) j = rd w j
    rw [ih (lo + 1) (modStep lo w) j (by omega), modStep_rd]
    have : ¬ (j = lo ∧ lo < NN) := by omega
    rw [if_neg this]

/-- While the single loop runs, the words below the counter are final and the others
are still the old ones. -/
theorem forLoop_modStep_rd (mt : Words) (k a : Nat) (hk : k ≤ 312) :
    rd (forLoop modStep 0 k mt) a = if a < k then rd (modTwist mt) a else rd mt a := by
  by_cases h : a < k
  · rw [if_pos h]
    have e : modTwist mt = forLoop modStep (0 + k) (312 - k) (forLoop modStep 0 k mt) := by
      rw [← forLoop_add]
      have : k + (312 - k) = 312 := by omega
      rw [this]
      rfl
    rw [e, forLoop_modStep_rd_outside (312 - k) (0 + k) (forLoop modStep 0 k mt) a (by omega)]
  · rw [if_neg h]
    exact forLoop_modStep_rd_outside _ _ _ _ (by omega)

theorem modTwist_rd (mt : Words) (k : Nat) (hk : k < 312) :
    rd (modTwist mt) k
      = mixT (rd mt k) (rd (forLoop modStep 0 k mt) ((k + 1) % 312))
          ^^^ rd (forLoop modStep 0 k mt) ((k + 63) % 312)
          ^^^ rd (forLoop modStep 0 k mt) ((k + 151) % 312)
          ^^^ rd (forLoop modStep 0 k mt) ((k + 224) % 312) := by
  have h1 := forLoop_modStep_rd mt (k + 1) k (by omega)
  rw [if_pos (Nat.lt_succ_self k)] at h1
  rw [← h1, forLoop_succ_last, Nat.zero_add, modStep_rd, if_pos ⟨rfl, hk⟩,
    forLoop_modStep_rd mt k k (by omega), if_neg (Nat.lt_irrefl k)]

theorem genSeq_old (mt : Words) (c k : Nat) (hk : k < 312) : genSeq ⟨mt, c⟩ k = rd mt k := by
  unfold genSeq
  rw [if_pos hk]

theorem genSeq_new (mt : Words) (c k : Nat) (hc : c ≤ 312) (hk : 312 ≤ k) :
    genSeq ⟨mt, c⟩ k = rd (modTwist mt) (k - 312) := by
  unfold genSeq
  rw [if_neg (by show ¬ k < 312; omega), forward_state_seeded mt c hc, twist_eq_modTwist]

/-- A word of the array during the single loop, as a word of the sequence `X`. -/
theorem forLoop_modStep_rd_genSeq (mt : Words) (c k d : Nat) (hc : c ≤ 312) (hk : k < 312)
    (hd : d < 312) :
    rd (forLoop modStep 0 k mt) ((k + d) % 312) = genSeq ⟨mt, c⟩ (k + d) := by
  rw [forLoop_modStep_rd mt k _ (by omega)]
  by_cases h : k + d < 312
  · rw [Nat.mod_eq_of_lt h, if_neg (by omega), genSeq_old mt c _ h]
  · have e : (k + d) % 312 = k + d - 312 := by omega
    rw [e, if_pos (by omega), genSeq_new mt c _ hc (by omega)]

/-- C15: with `X` the 312 old words followed by the 312 words after `forward_state`, every
new word satisfies `X[k+312] = T(X[k], X[k+1]) XOR X[k+63] XOR X[k+151] XOR X[k+224]`; the
words whose index passes 311 are the regenerated ones. -/
theorem five_term_recurrence (old : Words) (c : Fin (NN + 1)) (k : Fin NN) :
    genSeq ⟨old, c⟩ (k + 312)
      = mixT (genSeq ⟨old, c⟩ k) (genSeq ⟨old, c⟩ (k + 1)) ^^^ genSeq ⟨old, c⟩ (k + 63)
          ^^^ genSeq ⟨old, c⟩ (k + 151) ^^^ genSeq ⟨old, c⟩ (k + 224) := by
  have hc : (c : Nat) ≤ 312 := Nat.le_of_lt_succ c.isLt
  have hk : (k : Nat) < 312 := k.isLt
  rw [genSeq_new old c _ hc (by omega), Nat.add_sub_cancel, modTwist_rd old k hk,
    forLoop_modStep_rd_genSeq old c k 1 hc hk (by omega),
    forLoop_modStep_rd_genSeq old c k 63 hc hk (by omega),
    forLoop_modStep_rd_genSeq old c k 151 hc hk (by omega),
    forLoop_modStep_rd_genSeq old c k 224 hc hk (by omega), genSeq_old old c k hk]

/-! ## The low bits of the first word -/

theorem and_UMASK_eq_of_shiftRight_eq {x y : Nat} (h : x >>> 31 = y >>> 31) :
    x &&& UMASK = y &&& UMASK := by
  apply Nat.eq_of_testBit_eq
  intro i
  rw [Nat.testBit_and, Nat.testBit_and]
  by_cases hi : 31 ≤ i
  · have hx : x.testBit i = (x >>> 31).testBit (i - 31) := by
      rw [Nat.testBit_shiftRight]; congr 1; omega
    have hy : y.testBit i = (y >>> 31).testBit (i - 31) := by
      rw [Nat.testBit_shiftRight]; congr 1; omega
    rw [hx, hy, h]
  · have hm : UMASK.testBit i = false := by
      have e : UMASK = (2 ^ 33 - 1) <<< 31 := by decide
      rw [e, Nat.testBit_shiftLeft]
      simp [hi]
    rw [hm, Bool.and_false, Bool.and_false]

theorem mixT_congr {a a' : Nat} (b : Nat) (h : a &&& UMASK = a' &&& UMASK) :
    mixT a b = mixT a' b := by
  unfold mixT
  show (let y := (a &&& UMASK) ||| (b &&& 0x7FFFFFFF); _) = (let y := (a' &&& UMASK) ||| (b &&& 0x7FFFFFFF); _)
  rw [h]

theorem modTwist_eq_of_agree (a b : Words) (h0 : rd a 0 >>> 31 = rd b 0 >>> 31)
    (h : ∀ i, 1 ≤ i → i < 312 → rd a i = rd b i) : modTwist a = modTwist b := by
  have e : ∀ w, modTwist w = forLoop modStep 1 311 (modStep 0 w) := fun w =>
    forLoop_add modStep 1 311 0 w
  rw [e a, e b]
  congr 1
  apply words_ext
  intro j _
  rw [modStep_rd, modStep_rd]
  by_cases hj : j = 0 ∧ 0 < NN
  · rw [if_pos hj, if_pos hj, mixT_congr _ (and_UMASK_eq_of_shiftRight_eq h0),
      h 1 (by omega) (by omega), h 63 (by omega) (by omega), h 151 (by omega) (by omega),
      h 224 (by omega) (by omega)]
  · rw [if_neg hj, if_neg hj]
    by_cases hj0 : j = 0
    · exact absurd ⟨hj0, by decide⟩ hj
    · exact h j (by omega) (by assumption)

/-- C18: two seeded states whose words agree except possibly in the low 31 bits of
`mt[0]` (same `mt[0] >> 31`, same `mt[1..311]`) are taken by `forward_state` to the same
state. -/
theorem low_bits_of_first_word_ignored (a b : Words) (ca cb : Fin (NN + 1))
    (h0 : rd a 0 >>> 31 = rd b 0 >>> 31) (h : ∀ i, 1 ≤ i → i < 312 → rd a i = rd b i) :
    forward_state ⟨a, ca⟩ = forward_state ⟨b, cb⟩ := by
  rw [forward_state_seeded a ca (Nat.le_of_lt_succ ca.isLt),
    forward_state_seeded b cb (Nat.le_of_lt_succ cb.isLt), twist_eq_modTwist, twist_eq_modTwist,
    modTwist_eq_of_agree a b h0 h]

set_option maxRecDepth 100000 in
theorem low_bits_of_first_word_ignored_witness :
    rd zeroWords 0 >>> 31 = rd (wr zeroWords 0 0x7FFFFFFF) 0 >>> 31 ∧
    (∀ i, 1 ≤ i → i < 312 → rd zeroWords i = rd (wr zeroWords 0 0x7FFFFFFF) i) ∧
    forward_state ⟨zeroWords, 0⟩ = forward_state ⟨wr zeroWords 0 0x7FFFFFFF, 312⟩ :=
  have h0 : rd zeroWords 0 >>> 31 = rd (wr zeroWords 0 0x7FFFFFFF) 0 >>> 31 := by decide
  have h : ∀ i, 1 ≤ i → i < 312 → rd zeroWords i = rd (wr zeroWords 0 0x7FFFFFFF) i :=
    fun i h1 _ => by rw [rd_wr, if_neg (by omega)]
  ⟨h0, h, low_bits_of_first_word_ignored zeroWords (wr zeroWords 0 0x7FFFFFFF) 0 ⟨312, by decide⟩
    h0 h⟩

/-! ## Linearity -/

theorem rd_xorWords (a b : Words) (i : Nat) : rd (xorWords a b) i = rd a i ^^^ rd b i := by
  unfold rd xorWords
  simp only [List.getD_eq_getElem?_getD, List.getElem?_zipWith]
  cases ha : a.val[i]? with
  | none => 
    have hb : b.val[i]? = none := by
      rw [List.getElem?_eq_none_iff] at ha ⊢
      rw [b.property, ← a.property]
      exact ha
    simp [hb]
  | some x =>
    cases hb : b.val[i]? with
    | none =>
      have : a.val[i]? = none := by
        rw [List.getElem?_eq_none_iff] at hb ⊢
        rw [a.property, ← b.property]
        exact hb
      rw [this] at ha
      cases ha
    | some y => simp

theorem rd_zeroWords (i : Nat) : rd zeroWords i = 0 := by
  unfold rd zeroWords
  simp only [List.getD_eq_getElem?_getD, List.getElem?_replicate]
  by_cases h : i < NN <;> simp [h]

theorem xor_xor_xor_comm (a b c d : Nat) : (a ^^^ b) ^^^ (c ^^^ d) = (a ^^^ c) ^^^ (b ^^^ d) := by
  apply Nat.eq_of_testBit_eq
  intro i
  simp only [Nat.testBit_xor]
  cases a.testBit i <;> cases b.testBit i <;> cases c.testBit i <;> cases d.testBit i <;> rfl

theorem ite_xor_bit (p q : Bool) (A : Nat) :
    (if (p ^^ q) = true then A else 0) = (if p = true then A else 0) ^^^ (if q = true then A else 0) := by
  cases p <;> cases q <;> simp

theorem mod_two_eq_one_iff_testBit (y : Nat) : y % 2 = 1 ↔ y.testBit 0 = true := by
  rw [Nat.testBit_zero]
  simp

theorem mixT_xor (a a' b b' : Nat) :
    mixT (a ^^^ a') (b ^^^ b') = mixT a b ^^^ mixT a' b' := by
  have hy : ((a ^^^ a') &&& 0xFFFFFFFF80000000) ||| ((b ^^^ b') &&& 0x7FFFFFFF)
      = ((a &&& 0xFFFFFFFF80000000) ||| (b &&& 0x7FFFFFFF))
        ^^^ ((a' &&& 0xFFFFFFFF80000000) ||| (b' &&& 0x7FFFFFFF)) := by
    apply Nat.eq_of_testBit_eq
    intro i
    have hd : (Nat.testBit 0xFFFFFFFF80000000 i && Nat.testBit 0x7FFFFFFF i) = false := by
      rw [← Nat.testBit_and]
      have : (0xFFFFFFFF80000000 : Nat) &&& 0x7FFFFFFF = 0 := by decide
      rw [this, Nat.zero_testBit]
    simp only [Nat.testBit_or, Nat.testBit_and, Nat.testBit_xor]
    revert hd
    cases Nat.testBit 0xFFFFFFFF80000000 i <;> cases Nat.testBit 0x7FFFFFFF i <;>
      cases a.testBit i <;> cases a'.testBit i <;> cases b.testBit i <;> cases b'.testBit i <;>
      simp
  unfold mixT
  simp only [hy]
  generalize (a &&& 0xFFFFFFFF80000000) ||| (b &&& 0x7FFFFFFF) = y
  generalize (a' &&& 0xFFFFFFFF80000000) ||| (b' &&& 0x7FFFFFFF) = y'
  have hodd : ((y ^^^ y') % 2 = 1) ↔ ((y.testBit 0 ^^ y'.testBit 0) = true) := by
    rw [mod_two_eq_one_iff_testBit, Nat.testBit_xor]
  have e1 : (if (y ^^^ y') % 2 = 1 then (0xB3815B624FC82E2F : Nat) else 0)
      = (if (y.testBit 0 ^^ y'.testBit 0) = true then (0xB3815B624FC82E2F : Nat) else 0) :=
    if_congr hodd rfl rfl
  have e2 : ∀ z : Nat, (if z % 2 = 1 then (0xB3815B624FC82E2F : Nat) else 0)
      = (if z.testBit 0 = true then (0xB3815B624FC82E2F : Nat) else 0) := fun z =>
    if_congr (mod_two_eq_one_iff_testBit z) rfl rfl
  rw [e1, e2 y, e2 y', ite_xor_bit, shiftRight_xor, xor_xor_xor_comm]

theorem modStep_xorWords (i : Nat) (a b : Words) :
    modStep i (xorWords a b) = xorWords (modStep i a) (modStep i b) := by
  apply words_ext
  intro j _
  rw [rd_xorWords, modStep_rd, modStep_rd, modStep_rd]
  by_cases h : j = i ∧ i < NN
  · simp only [if_pos h, rd_xorWords, mixT_xor, xor_xor_xor_comm]
  · simp only [if_neg h, rd_xorWords]

theorem forLoop_modStep_xorWords (n : Nat) :
    ∀ (lo : Nat) (a b : Words),
      forLoop modStep lo n (xorWords a b)
        = xorWords (forLoop modStep lo n a) (forLoop modStep lo n b) := by
  induction n with
  | zero => intro lo a b; rfl
  | succ n ih =>
    intro lo a b
    show forLoop modStep (lo + 1) n (modStep lo (xorWords a b)) = _
    rw [modStep_xorWords, ih]
    rfl

theorem twist_xorWords (a b : Words) : twist (xorWords a b) = xorWords (twist a) (twist b) := by
  rw [twist_eq_modTwist, twist_eq_modTwist, twist_eq_modTwist]
  exact forLoop_modStep_xorWords _ _ _ _

theorem xorWords_self (a : Words) : xorWords a a = zeroWords :=
  words_ext _ _ (fun i _ => by rw [rd_xorWords, rd_zeroWords, Nat.xor_self])

theorem twist_zeroWords : twist zeroWords = zeroWords := by
  have h := twist_xorWords zeroWords zeroWords
  rw [xorWords_self] at h
  rw [h, xorWords_self]

theorem temper_shr_xor (k x y : Nat) :
    temper_shr k (x ^^^ y) = temper_shr k x ^^^ temper_shr k y := by
  unfold temper_shr
  rw [shiftRight_xor, xor_xor_xor_comm]

theorem temper_shl_xor (k m x y : Nat) :
    temper_shl k m (x ^^^ y) = temper_shl k m x ^^^ temper_shl k m y := by
  unfold temper_shl
  rw [shl_mask_xor, xor_xor_xor_comm]

/-- C19: `forward_state` and tempering are linear for XOR: the state advance of a
word-wise XOR of two seeded arrays is the word-wise XOR of the two advances, the zero
array stays zero, `tempering (x XOR y) = tempering x XOR tempering y`, and
`tempering 0 = 0`. -/
theorem xor_linearity (a b : Words) (c ca cb : Fin (NN + 1)) (x y : Nat) :
    (forward_state ⟨xorWords a b, c⟩).mt
      = xorWords (forward_state ⟨a, ca⟩).mt (forward_state ⟨b, cb⟩).mt ∧
    (forward_state ⟨zeroWords, c⟩).mt = zeroWords ∧
    tempering (x ^^^ y) = tempering x ^^^ tempering y ∧
    tempering 0 = 0 := by
  refine ⟨?_, ?_, ?_, by decide⟩
  · rw [forward_state_seeded _ c (Nat.le_of_lt_succ c.isLt),
      forward_state_seeded _ ca (Nat.le_of_lt_succ ca.isLt),
      forward_state_seeded _ cb (Nat.le_of_lt_succ cb.isLt)]
    exact twist_xorWords a b
  · rw [forward_state_seeded _ c (Nat.le_of_lt_succ c.isLt)]
    exact twist_zeroWords
  · rw [tempering_eq, tempering_eq, tempering_eq, temper_shr_xor, temper_shl_xor, temper_shl_xor,
      temper_shr_xor]

/-! ## The lazily seeded stream -/

theorem draw_n_add_state (a : Nat) :
    ∀ (b : Nat) (g : State), (draw_n (a + b) g).2 = (draw_n b (draw_n a g).2).2 := by
  induction a with
  | zero => intro b g; rw [Nat.zero_add]; rfl
  | succ a ih =>
    intro b g
    have e : a + 1 + b = (a + b) + 1 := by omega
    rw [e, draw_n_succ, draw_n_succ]
    exact ih b _

theorem draw_312_sgenrand (s : Nat) (g : State) :
    (draw_n 312 (sgenrand s g)).2 = ⟨(sgenrand s g).mt, 312⟩ := by
  have h := draw_n_of_le (sgenrand s g).mt 312 0 (by decide)
  have e : sgenrand s g = ⟨(sgenrand s g).mt, 0⟩ := rfl
  rw [← e] at h
  rw [h]

theorem genrand_uint64_after_312 (g : State) :
    genrand_uint64 (draw_n 312 (sgenrand 987654321 g)).2 = genrand_uint64 initState := by
  rw [draw_312_sgenrand, genrand_uint64_initState g, genrand_uint64_at_NN,
    forward_state_seeded _ NN (Nat.le_refl NN), forward_state_sgenrand,
    genrand_uint64_of_lt _ 0 (by decide)]

theorem draw_one_state (g : State) : (draw_n 1 g).2 = (genrand_uint64 g).2 := rfl

theorem draw_313_sgenrand (g : State) :
    (draw_n 313 (sgenrand 987654321 g)).2 = (draw_n 1 initState).2 := by
  rw [draw_n_add_state 312 1, draw_one_state, draw_one_state, genrand_uint64_after_312]

/-- C17: the `k`-th value of the never-seeded generator is the `(k+312)`-th value of a
generator seeded with `sgenrand(987654321)`, and the never-seeded generator's state after
its first draw is the seeded generator's state after its 313th draw. -/
theorem lazy_stream_shifted_by_312 (k : Nat) (g : State) :
    nth_output k initState = nth_output (k + 312) (sgenrand 987654321 g) ∧
    (draw_n 1 initState).2 = (draw_n 313 (sgenrand 987654321 g)).2 := by
  refine ⟨?_, (draw_313_sgenrand g).symm⟩
  unfold nth_output
  cases k with
  | zero =>
    rw [Nat.zero_add, genrand_uint64_after_312]
    rfl
  | succ k =>
    have e1 : k + 1 = 1 + k := by omega
    have e2 : k + 1 + 312 = 313 + k := by omega
    rw [e2, draw_n_add_state 313 k, draw_313_sgenrand, e1, draw_n_add_state 1 k]

/-! ## Index safety of the twist -/

theorem rd_checked_cast (mt : Words) (i : Nat) (hi : i < NN) :
    rd_checked mt (i : Int) = some (rd mt i) := by
  unfold rd_checked
  have h : (0 : Int) ≤ (i : Int) ∧ (i : Int) < (NN : Int) :=
    ⟨Int.ofNat_nonneg i, Int.ofNat_lt.mpr hi⟩
  rw [if_pos h, Int.toNat_ofNat]

theorem wr_checked_cast (mt : Words) (i v : Nat) (hi : i < NN) :
    wr_checked mt (i : Int) v = some (wr mt i v) := by
  unfold wr_checked
  have h : (0 : Int) ≤ (i : Int) ∧ (i : Int) < (NN : Int) :=
    ⟨Int.ofNat_nonneg i, Int.ofNat_lt.mpr hi⟩
  rw [if_pos h, Int.toNat_ofNat]

theorem mag01_getElem? (x : Nat) : mag01[x &&& 1]? = some (mag01.getD (x &&& 1) 0) := by
  rw [Nat.and_one_is_mod]
  rcases Nat.mod_two_eq_zero_or_one x with h | h <;> rw [h] <;> rfl

/-- With all five indices inside the array, the bounds-checked statements succeed and do
what the unchecked ones do. -/
theorem twist_at_checked_eq (I NXT T0 T1 T2 : Int) (i nxt t0 t1 t2 : Nat) (r : Run)
    (hI : I = i) (hN : NXT = nxt) (h0 : T0 = t0) (h1 : T1 = t1) (h2 : T2 = t2)
    (bi : i < NN) (bn : nxt < NN) (b0 : t0 < NN) (b1 : t1 < NN) (b2 : t2 < NN) :
    twist_at_checked I NXT T0 T1 T2 r
      = some { mt := twist_at i nxt t0 t1 t2 r.mt, done := r.done ++ [I] } := by
  subst hI hN h0 h1 h2
  simp only [twist_at_checked, rd_checked_cast _ _ bi, rd_checked_cast _ _ bn,
    rd_checked_cast _ _ b0, rd_checked_cast _ _ b1, rd_checked_cast _ _ b2,
    wr_checked_cast _ _ _ bi, mag01_getElem?, Option.bind_eq_bind, Option.some_bind, twist_at]

theorem loop_checked_eq (hi : Nat) (bodyC : Int → Run → Option Run) (bodyN : Nat → Words → Words)
    (n : Nat) :
    ∀ (lo : Nat) (r : Run) (fuel : Nat), lo + n = hi → n < fuel →
      (∀ i s, lo ≤ i → i < hi →
        bodyC (i : Int) s = some { mt := bodyN i s.mt, done := s.done ++ [(i : Int)] }) →
      loop_checked (hi : Int) bodyC fuel (lo : Int) r
        = some ((hi : Int), { mt := forLoop bodyN lo n r.mt,
                              done := r.done ++ (List.range' lo n).map Int.ofNat }) := by
  induction n with
  | zero =>
    intro lo r fuel hlo hf _
    obtain ⟨f, rfl⟩ : ∃ f, fuel = f + 1 := ⟨fuel - 1, by omega⟩
    have e : lo = hi := by omega
    subst e
    simp [loop_checked, forLoop]
  | succ n ih =>
    intro lo r fuel hlo hf hb
    obtain ⟨f, rfl⟩ : ∃ f, fuel = f + 1 := ⟨fuel - 1, by omega⟩
    have hlt : (lo : Int) < (hi : Int) := Int.ofNat_lt.mpr (by omega)
    have hstep := ih (lo + 1) { mt := bodyN lo r.mt, done := r.done ++ [(lo : Int)] } f
      (by omega) (by omega) (fun i s h1 h2 => hb i s (by omega) h2)
    have hc : ((lo + 1 : Nat) : Int) = (lo : Int) + 1 := by push_cast; rfl
    rw [hc] at hstep
    simp only [loop_checked, if_pos hlt, hb lo r (Nat.le_refl lo) (by omega), hstep, forLoop,
      List.range', List.map_cons, List.append_assoc, List.singleton_append]
    rfl

set_option maxRecDepth 100000 in
theorem twist_checked_eq (mt : Words) (extra : Nat) :
    twist_checked (89 + extra) mt
      = some { mt := twist mt, done := (List.range 312).map Int.ofNat } := by
  have l0 := loop_checked_eq 88
    (fun i => twist_at_checked i (i + 1) (i + M0) (i + M1) (i + M2)) twist_body0 88 0
    { mt := mt, done := [] } (89 + extra) (by omega) (by omega)
    (fun i s _ h2 => twist_at_checked_eq _ _ _ _ _ i (i + 1) (i + M0) (i + M1) (i + M2) s rfl
      (by push_cast; rfl) (by push_cast; rfl) (by push_cast; rfl) (by push_cast; rfl)
      (by show i < 312; omega) (by show i + 1 < 312; omega) (by show i + 63 < 312; omega)
      (by show i + 151 < 312; omega) (by show i + 224 < 312; omega))
  have l1 := fun r => loop_checked_eq 161
    (fun i => twist_at_checked i (i + 1) (i + M0) (i + M1) (i + M2 - NN)) twist_body1 73 88
    r (89 + extra) (by omega) (by omega)
    (fun i s h1 h2 => twist_at_checked_eq _ _ _ _ _ i (i + 1) (i + M0) (i + M1) (i + M2 - NN) s
      rfl (by push_cast; rfl) (by push_cast; rfl) (by push_cast; rfl)
      (by simp only [M2, NN]; omega)
      (by show i < 312; omega) (by show i + 1 < 312; omega) (by show i + 63 < 312; omega)
      (by show i + 151 < 312; omega) (by show i + 224 - 312 < 312; omega))
  have l2 := fun r => loop_checked_eq 249
    (fun i => twist_at_checked i (i + 1) (i + M0) (i + M1 - NN) (i + M2 - NN)) twist_body2 88 161
    r (89 + extra) (by omega) (by omega)
    (fun i s h1 h2 => twist_at_checked_eq _ _ _ _ _ i (i + 1) (i + M0) (i + M1 - NN)
      (i + M2 - NN) s rfl (by push_cast; rfl) (by push_cast; rfl)
      (by simp only [M1, NN]; omega) (by simp only [M2, NN]; omega)
      (by show i < 312; omega) (by show i + 1 < 312; omega) (by show i + 63 < 312; omega)
      (by show i + 151 - 312 < 312; omega) (by show i + 224 - 312 < 312; omega))
  have l3 := fun r => loop_checked_eq 311
    (fun i => twist_at_checked i (i + 1) (i + M0 - NN) (i + M1 - NN) (i + M2 - NN)) twist_body3
    62 249 r (89 + extra) (by omega) (by omega)
    (fun i s h1 h2 => twist_at_checked_eq _ _ _ _ _ i (i + 1) (i + M0 - NN) (i + M1 - NN)
      (i + M2 - NN) s rfl (by push_cast; rfl)
      (by simp only [M0, NN]; omega) (by simp only [M1, NN]; omega) (by simp only [M2, NN]; omega)
      (by show i < 312; omega) (by show i + 1 < 312; omega) (by show i + 63 - 312 < 312; omega)
      (by show i + 151 - 312 < 312; omega) (by show i + 224 - 312 < 312; omega))
  have l4 := fun r => twist_at_checked_eq ((NN : Int) - 1) 0 ((M0 : Int) - 1) ((M1 : Int) - 1)
    ((M2 : Int) - 1) (NN - 1) 0 (M0 - 1) (M1 - 1) (M2 - 1) r (by decide) (by decide) (by decide)
    (by decide) (by decide) (by decide) (by decide) (by decide) (by decide) (by decide)
  have e0 : ((NN : Int) - M2) = ((88 : Nat) : Int) := by decide
  have e1 : ((NN : Int) - M1) = ((161 : Nat) : Int) := by decide
  have e2 : ((NN : Int) - M0) = ((249 : Nat) : Int) := by decide
  have e3 : ((NN : Int) - 1) = ((311 : Nat) : Int) := by decide
  have l0z : loop_checked ((88 : Nat) : Int)
      (fun i => twist_at_checked i (i + 1) (i + M0) (i + M1) (i + M2)) (89 + extra) 0
      { mt := mt, done := [] } = _ := l0
  have hdone : ([] : List Int) ++ List.map Int.ofNat (List.range' 0 88)
      ++ List.map Int.ofNat (List.range' 88 73) ++ List.map Int.ofNat (List.range' 161 88)
      ++ List.map Int.ofNat (List.range' 249 62) ++ [(NN : Int) - 1]
      = List.map Int.ofNat (List.range 312) := by decide
  unfold twist_checked
  rw [e0, e1, e2]
  simp only [l0z, l1, l2, Option.bind_eq_bind, Option.some_bind]
  rw [show loop_checked ((NN : Int) - 1) = loop_checked ((311 : Nat) : Int) from by rw [e3]]
  simp only [l3, Option.some_bind, l4, hdone]
  rfl

theorem rd_checked_outside (mt : Words) (i : Int) (h : i < 0 ∨ (NN : Int) ≤ i) :
    rd_checked mt i = none := by
  unfold rd_checked
  rw [if_neg (by omega)]

/-- C16: in `forward_state` every access to `mt` and to `mag01` is within bounds and
every loop ends (89 loop tests per loop are enough): the bounds-checked run, from any
state, seeded or not, succeeds with the state that `forward_state` gives, and the words
it regenerates are `0, 1, …, 311`, each exactly once. -/
theorem twist_index_safety (g : State) (extra : Nat) :
    forward_state_checked (89 + extra) g
      = some (forward_state g, (List.range 312).map Int.ofNat) := by
  unfold forward_state_checked
  simp only [twist_checked_eq, Option.map_some']
  rfl

/-! ## Rounding to `double` -/

theorem round_even_intCast (N : ℤ) : round_even (N : ℚ) = N := by
  unfold round_even
  rw [Int.floor_intCast, sub_self, if_pos (by norm_num)]

theorem round_even_le {q : ℚ} {N : ℤ} (h : q ≤ N) : round_even q ≤ N := by
  have hf : ⌊q⌋ ≤ N := Int.cast_le.mp (le_trans (Int.floor_le q) h)
  have hstep : ¬ (q - ⌊q⌋ < 1 / 2) → ⌊q⌋ + 1 ≤ N := by
    intro hd
    have h1 : ((⌊q⌋ : ℤ) : ℚ) < N := by linarith
    have h2 : ⌊q⌋ < N := Int.cast_lt.mp h1
    omega
  unfold round_even
  split_ifs with h1 h2 h3
  · exact hf
  · exact hstep h1
  · exact hf
  · exact hstep h1

theorem round_even_nonneg {q : ℚ} (h : 0 ≤ q) : 0 ≤ round_even q := by
  have hf : 0 ≤ ⌊q⌋ := Int.floor_nonneg.mpr h
  unfold round_even
  split_ifs <;> omega

theorem round_even_eq_of_abs_lt {q : ℚ} {N : ℤ} (h : |q - N| < 1 / 2) : round_even q = N := by
  rw [abs_lt] at h
  obtain ⟨hl, hu⟩ := h
  by_cases hc : (N : ℚ) ≤ q
  · have hf : ⌊q⌋ = N := by
      rw [Int.floor_eq_iff]
      constructor <;> linarith
    unfold round_even
    rw [hf, if_pos (by linarith)]
  · have hf : ⌊q⌋ = N - 1 := by
      rw [Int.floor_eq_iff]
      push_cast
      constructor <;> linarith
    unfold round_even
    rw [hf]
    push_cast
    rw [if_neg (by linarith), if_pos (by linarith)]
    omega

theorem two_zpow_pos (e : ℤ) : (0 : ℚ) < 2 ^ e := zpow_pos (by norm_num) e

theorem to_double_zero : to_double 0 = 0 := by
  unfold to_double
  rw [zero_div, show round_even (0 : ℚ) = 0 from round_even_intCast 0]
  simp

theorem to_double_nonneg {q : ℚ} (h : 0 ≤ q) : 0 ≤ to_double q := by
  unfold to_double
  have h1 : (0 : ℚ) ≤ q / 2 ^ ulp_exp q := div_nonneg h (le_of_lt (two_zpow_pos _))
  have h2 : (0 : ℚ) ≤ (round_even (q / 2 ^ ulp_exp q) : ℤ) := Int.cast_nonneg.mpr (round_even_nonneg h1)
  exact mul_nonneg h2 (le_of_lt (two_zpow_pos _))

theorem log_eq_of_bounds {q : ℚ} {l : ℤ} (h1 : 2 ^ l ≤ q) (h2 : q < 2 ^ (l + 1)) :
    Int.log 2 q = l := by
  have hq : 0 < q := lt_of_lt_of_le (two_zpow_pos l) h1
  have a : l ≤ Int.log 2 q := (Int.zpow_le_iff_le_log (by norm_num) hq).mp (by simpa using h1)
  have b : Int.log 2 q < l + 1 := (Int.lt_zpow_iff_log_lt (by norm_num) hq).mp (by simpa using h2)
  omega

theorem ulp_exp_eq_of_bounds {q : ℚ} {e : ℤ} (h1 : 2 ^ (e + 52) ≤ q) (h2 : q < 2 ^ (e + 53))
    (he : -1074 ≤ e) : ulp_exp q = e := by
  have hq : 0 < q := lt_of_lt_of_le (two_zpow_pos _) h1
  unfold ulp_exp
  rw [abs_of_pos hq, log_eq_of_bounds h1 (by rw [show e + 52 + 1 = e + 53 by ring]; exact h2)]
  rw [show e + 52 - 52 = e by ring]
  exact max_eq_left he

theorem to_double_eq_of_nearest (q : ℚ) (e N : ℤ) (h1 : 2 ^ (e + 52) ≤ q)
    (h2 : q < 2 ^ (e + 53)) (he : -1074 ≤ e) (hN : |q / 2 ^ e - N| < 1 / 2) :
    to_double q = N * 2 ^ e := by
  unfold to_double
  rw [ulp_exp_eq_of_bounds h1 h2 he, round_even_eq_of_abs_lt hN]

theorem ulp_exp_le_of_repr {m : ℕ} {k : ℤ} (h0 : 0 < m) (hm : m < 2 ^ 53) (hk : -1074 ≤ k) :
    ulp_exp ((m : ℚ) * 2 ^ k) ≤ k := by
  have hp : (0 : ℚ) < (m : ℚ) * 2 ^ k := mul_pos (Nat.cast_pos.mpr h0) (two_zpow_pos k)
  have hlt : (m : ℚ) * 2 ^ k < 2 ^ (53 + k) := by
    rw [zpow_add₀ (by norm_num : (2 : ℚ) ≠ 0)]
    have : (m : ℚ) < 2 ^ (53 : ℤ) := by
      rw [zpow_ofNat]
      exact_mod_cast hm
    exact mul_lt_mul_of_pos_right this (two_zpow_pos k)
  have hlog : Int.log 2 ((m : ℚ) * 2 ^ k) < 53 + k :=
    (Int.lt_zpow_iff_log_lt (by norm_num) hp).mp (by simpa using hlt)
  unfold ulp_exp
  rw [abs_of_pos hp]
  exact max_le (by omega) hk

theorem ulp_exp_mono {q p : ℚ} (hq : 0 < q) (h : q ≤ p) : ulp_exp q ≤ ulp_exp p := by
  unfold ulp_exp
  rw [abs_of_pos hq, abs_of_pos (lt_of_lt_of_le hq h)]
  have hl : Int.log 2 q ≤ Int.log 2 p := Int.log_mono_right hq h
  exact max_le_max (by omega) (le_refl _)

/-- A `double` value `m * 2^k` is an integer multiple of every `2^e` with `e ≤ k`. -/
theorem repr_div_two_zpow (m : ℕ) {k e : ℤ} (h : e ≤ k) :
    ∃ N : ℤ, (m : ℚ) * 2 ^ k / 2 ^ e = N := by
  obtain ⟨n, hn⟩ := Int.eq_ofNat_of_zero_le (sub_nonneg.mpr h)
  refine ⟨(m : ℤ) * 2 ^ n, ?_⟩
  have hk : k = e + n := by omega
  rw [hk, zpow_add₀ (by norm_num : (2 : ℚ) ≠ 0), zpow_natCast]
  push_cast
  field_simp
  ring

theorem to_double_le_of_le_repr {q : ℚ} {m : ℕ} {k : ℤ} (hq : 0 ≤ q) (h : q ≤ (m : ℚ) * 2 ^ k)
    (hm : m < 2 ^ 53) (hk : -1074 ≤ k) : to_double q ≤ (m : ℚ) * 2 ^ k := by
  rcases eq_or_lt_of_le hq with h0 | hpos
  · rw [← h0, to_double_zero]
    exact le_trans hq h
  · have hp : (0 : ℚ) < (m : ℚ) * 2 ^ k := lt_of_lt_of_le hpos h
    have hm0 : 0 < m := by
      rcases Nat.eq_zero_or_pos m with hz | hz
      · rw [hz] at hp; simp at hp
      · exact hz
    have he : ulp_exp q ≤ k := le_trans (ulp_exp_mono hpos h) (ulp_exp_le_of_repr hm0 hm hk)
    obtain ⟨N, hN⟩ := repr_div_two_zpow m he
    have hdiv : q / 2 ^ ulp_exp q ≤ (N : ℚ) := by
      rw [← hN]
      exact div_le_div_of_nonneg_right h (le_of_lt (two_zpow_pos _))
    have hr : ((round_even (q / 2 ^ ulp_exp q) : ℤ) : ℚ) ≤ (N : ℚ) :=
      Int.cast_le.mpr (round_even_le hdiv)
    unfold to_double
    calc ((round_even (q / 2 ^ ulp_exp q) : ℤ) : ℚ) * 2 ^ ulp_exp q
        ≤ (N : ℚ) * 2 ^ ulp_exp q := mul_le_mul_of_nonneg_right hr (le_of_lt (two_zpow_pos _))
      _ = (m : ℚ) * 2 ^ k := by
          rw [← hN]
          exact div_mul_cancel₀ _ (ne_of_gt (two_zpow_pos _))

theorem to_double_exact (m : ℕ) (k : ℤ) (hm : m < 2 ^ 53) (hk : -1074 ≤ k) :
    to_double ((m : ℚ) * 2 ^ k) = (m : ℚ) * 2 ^ k := by
  rcases Nat.eq_zero_or_pos m with hz | hz
  · rw [hz]
    simp [to_double_zero]
  · obtain ⟨N, hN⟩ := repr_div_two_zpow m (ulp_exp_le_of_repr hz hm hk)
    unfold to_double
    rw [hN, round_even_intCast, ← hN]
    exact div_mul_cancel₀ _ (ne_of_gt (two_zpow_pos _))

theorem to_double_natCast (n : ℕ) (hn : n < 2 ^ 53) : to_double (n : ℚ) = n := by
  have := to_double_exact n 0 hn (by norm_num)
  simpa using this

/-- The constant `5.421010862427522170e-20` is `2^-64`. -/
theorem const_real1 : to_double (5421010862427522170 / 10 ^ 38) = 1 / 2 ^ 64 := by
  have h := to_double_eq_of_nearest (5421010862427522170 / 10 ^ 38) (-117) (2 ^ 53) (by norm_num) (by norm_num) (by norm_num)
    (by rw [abs_lt]; constructor <;> norm_num)
  rw [h]
  norm_num

/-- The constant `5.421010862427521568e-20` is `(2^53 - 1) / 2^117`, the `double` just
below `2^-64`. -/
theorem const_real2 : to_double (5421010862427521568 / 10 ^ 38) = (2 ^ 53 - 1) / 2 ^ 117 := by
  have h := to_double_eq_of_nearest (5421010862427521568 / 10 ^ 38) (-117) (2 ^ 53 - 1)
    (by norm_num) (by norm_num) (by norm_num)
    (by rw [abs_lt]; constructor <;> norm_num)
  rw [h]
  norm_num

/-- The constant `2.220446049250313081e-16` is `2^-52`. -/
theorem const_real3 : to_double (2220446049250313081 / 10 ^ 34) = 1 / 2 ^ 52 := by
  have h := to_double_eq_of_nearest (2220446049250313081 / 10 ^ 34) (-104) (2 ^ 52) (by norm_num) (by norm_num) (by norm_num)
    (by rw [abs_lt]; constructor <;> norm_num)
  rw [h]
  norm_num

/-- Conversion of the largest `unsigned long long` to `double` gives `2^64`. -/
theorem to_double_max : to_double ((2 ^ 64 - 1 : ℕ) : ℚ) = 2 ^ 64 := by
  have h := to_double_eq_of_nearest ((2 ^ 64 - 1 : ℕ) : ℚ) 11 (2 ^ 53) (by norm_num) (by norm_num) (by norm_num)
    (by rw [abs_lt]; constructor <;> norm_num)
  rw [h]
  norm_num

theorem to_double_word_le {x : ℕ} (hx : x < 2 ^ 64) : to_double (x : ℚ) ≤ 2 ^ 64 := by
  have h := @to_double_le_of_le_repr (x : ℚ) 1 64 (Nat.cast_nonneg x)
    (by
      have : (x : ℚ) < ((2 ^ 64 : ℕ) : ℚ) := Nat.cast_lt.mpr hx
      norm_num at this ⊢
      exact le_of_lt this)
    (by norm_num) (by norm_num)
  norm_num at h ⊢
  exact h

/-! ## Ranges of the real-valued outputs -/

theorem shiftRight_12_lt {x : ℕ} (hx : x < 2 ^ 64) : x >>> 12 < 2 ^ 52 := by
  rw [Nat.shiftRight_eq_div_pow]
  norm_num at hx ⊢
  omega

theorem to_double_half : to_double (5 / 10) = 1 / 2 := by
  have h := to_double_exact 1 (-1) (by norm_num) (by norm_num)
  have e : ((1 : ℕ) : ℚ) * 2 ^ (-1 : ℤ) = 5 / 10 := by norm_num
  rw [e] at h
  rw [h]
  norm_num

theorem real3_arith (n : ℕ) (hn : n < 2 ^ 52) :
    to_double ((n : ℚ) + 1 / 2) = (n : ℚ) + 1 / 2 ∧
    to_double (1 / 2 ^ 52 * ((n : ℚ) + 1 / 2)) = ((2 : ℚ) * (n : ℚ) + 1) / 2 ^ 53 := by
  have hm : 2 * n + 1 < 2 ^ 53 := by norm_num at hn ⊢; omega
  have h1 := to_double_exact (2 * n + 1) (-1) hm (by norm_num)
  have e1 : ((2 * n + 1 : ℕ) : ℚ) * (2 : ℚ) ^ (-1 : ℤ) = (n : ℚ) + 1 / 2 := by
    push_cast
    rw [zpow_neg, zpow_one]
    ring
  have h2 := to_double_exact (2 * n + 1) (-53) hm (by norm_num)
  have e2 : ((2 * n + 1 : ℕ) : ℚ) * (2 : ℚ) ^ (-53 : ℤ) = 1 / 2 ^ 52 * ((n : ℚ) + 1 / 2) := by
    push_cast
    rw [zpow_neg, zpow_ofNat]
    ring
  have e3 : (1 : ℚ) / 2 ^ 52 * ((n : ℚ) + 1 / 2) = ((2 : ℚ) * (n : ℚ) + 1) / 2 ^ 53 := by ring
  rw [e1] at h1
  rw [e2] at h2
  exact ⟨h1, h2.trans e3⟩

theorem real3_value_eq {x : ℕ} (hx : x < 2 ^ 64) :
    real3_value x = ((2 : ℚ) * ((x >>> 12 : ℕ) : ℚ) + 1) / 2 ^ 53 := by
  have hn : x >>> 12 < 2 ^ 52 := shiftRight_12_lt hx
  unfold real3_value
  rw [const_real3, to_double_natCast _ (lt_trans hn (by norm_num)), to_double_half,
    (real3_arith _ hn).1, (real3_arith _ hn).2]

/-- C11: for every 64-bit word `x`, the value of `genrand_real3` is exactly
`(2*(x >> 12) + 1) / 2^53`: the constant is `2^-52`, the conversion of `x >> 12`, the
constant `0.5` and their sum are exact; the value lies strictly between 0 and 1 and
depends only on `x >> 12`. -/
theorem real3_open_interval (x : ℕ) (hx : x < 2 ^ 64) :
    to_double (2220446049250313081 / 10 ^ 34) = 1 / 2 ^ 52 ∧
    to_double ((x >>> 12 : ℕ) : ℚ) = ((x >>> 12 : ℕ) : ℚ) ∧
    to_double (5 / 10) = 1 / 2 ∧
    to_double (((x >>> 12 : ℕ) : ℚ) + 1 / 2) = ((x >>> 12 : ℕ) : ℚ) + 1 / 2 ∧
    real3_value x = ((2 : ℚ) * ((x >>> 12 : ℕ) : ℚ) + 1) / 2 ^ 53 ∧
    0 < real3_value x ∧ real3_value x < 1 ∧
    (∀ y : ℕ, y >>> 12 = x >>> 12 → real3_value y = real3_value x) ∧
    (∀ g : State, genrand_real3 g = (real3_value (genrand_uint64 g).1, (genrand_uint64 g).2)) := by
  have hn : x >>> 12 < 2 ^ 52 := shiftRight_12_lt hx
  have hval := real3_value_eq hx
  refine ⟨const_real3, to_double_natCast _ (lt_trans hn (by norm_num)), to_double_half,
    (real3_arith _ hn).1, hval, ?_, ?_, ?_, fun _ => rfl⟩
  · rw [hval]
    positivity
  · rw [hval, div_lt_one (by norm_num)]
    have h' : ((x >>> 12 : ℕ) : ℚ) + 1 ≤ 2 ^ 52 := by
      have : x >>> 12 + 1 ≤ 2 ^ 52 := hn
      exact_mod_cast this
    linarith
  · intro y hy
    unfold real3_value
    rw [hy]

theorem real3_open_interval_witness :
    (2 ^ 64 - 1 < 2 ^ 64) ∧
    (to_double (2220446049250313081 / 10 ^ 34) = 1 / 2 ^ 52 ∧
    to_double (((2 ^ 64 - 1) >>> 12 : ℕ) : ℚ) = (((2 ^ 64 - 1) >>> 12 : ℕ) : ℚ) ∧
    to_double (5 / 10) = 1 / 2 ∧
    to_double ((((2 ^ 64 - 1) >>> 12 : ℕ) : ℚ) + 1 / 2) = (((2 ^ 64 - 1) >>> 12 : ℕ) : ℚ) + 1 / 2 ∧
    real3_value (2 ^ 64 - 1) = ((2 : ℚ) * (((2 ^ 64 - 1) >>> 12 : ℕ) : ℚ) + 1) / 2 ^ 53 ∧
    0 < real3_value (2 ^ 64 - 1) ∧ real3_value (2 ^ 64 - 1) < 1 ∧
    (∀ y : ℕ, y >>> 12 = (2 ^ 64 - 1) >>> 12 → real3_value y = real3_value (2 ^ 64 - 1)) ∧
    (∀ g : State, genrand_real3 g = (real3_value (genrand_uint64 g).1, (genrand_uint64 g).2))) :=
  ⟨by decide, real3_open_interval (2 ^ 64 - 1) (by decide)⟩

/-- C12: for every 64-bit word `x`, the value of `genrand_real2` is at least 0 and
strictly below 1; the constant is `(2^53 - 1) / 2^117`, the largest word converts to
`2^64`, and its value is `(2^53 - 1) / 2^53`. -/
theorem real2_half_open (x : ℕ) (hx : x < 2 ^ 64) :
    0 ≤ real2_value x ∧ real2_value x < 1 ∧
    to_double (5421010862427521568 / 10 ^ 38) = (2 ^ 53 - 1) / 2 ^ 117 ∧
    to_double ((2 ^ 64 - 1 : ℕ) : ℚ) = 2 ^ 64 ∧
    real2_value (2 ^ 64 - 1) = (2 ^ 53 - 1) / 2 ^ 53 ∧
    (∀ g : State, genrand_real2 g = (real2_value (genrand_uint64 g).1, (genrand_uint64 g).2)) := by
  have hd0 : (0 : ℚ) ≤ to_double (x : ℚ) := to_double_nonneg (Nat.cast_nonneg x)
  have hd1 : to_double (x : ℚ) ≤ 2 ^ 64 := to_double_word_le hx
  have hp : ((2 ^ 53 - 1 : ℕ) : ℚ) * 2 ^ (-53 : ℤ) = (2 ^ 53 - 1) / 2 ^ 53 := by
    rw [zpow_neg, zpow_ofNat]
    norm_num
  refine ⟨?_, ?_, const_real2, to_double_max, ?_, fun _ => rfl⟩
  · unfold real2_value
    rw [const_real2]
    exact to_double_nonneg (mul_nonneg (by norm_num) hd0)
  · unfold real2_value
    rw [const_real2]
    have hle : (2 ^ 53 - 1) / 2 ^ 117 * to_double (x : ℚ) ≤ ((2 ^ 53 - 1 : ℕ) : ℚ) * 2 ^ (-53 : ℤ) := by
      rw [hp]
      calc (2 ^ 53 - 1) / 2 ^ 117 * to_double (x : ℚ)
          ≤ (2 ^ 53 - 1) / 2 ^ 117 * 2 ^ 64 := mul_le_mul_of_nonneg_left hd1 (by norm_num)
        _ = (2 ^ 53 - 1) / 2 ^ 53 := by norm_num
    have h := to_double_le_of_le_repr (mul_nonneg (by norm_num) hd0) hle (by norm_num)
      (by norm_num)
    rw [hp] at h
    exact lt_of_le_of_lt h (by norm_num)
  · unfold real2_value
    rw [const_real2, to_double_max]
    have h := to_double_exact (2 ^ 53 - 1) (-53) (by norm_num) (by norm_num)
    rw [hp] at h
    have e : ((2 : ℚ) ^ 53 - 1) / 2 ^ 117 * 2 ^ 64 = (2 ^ 53 - 1) / 2 ^ 53 := by norm_num
    rw [e, h]

theorem real2_half_open_witness :
    (2 ^ 64 - 1 < 2 ^ 64) ∧
    (0 ≤ real2_value (2 ^ 64 - 1) ∧ real2_value (2 ^ 64 - 1) < 1 ∧
    to_double (5421010862427521568 / 10 ^ 38) = (2 ^ 53 - 1) / 2 ^ 117 ∧
    to_double ((2 ^ 64 - 1 : ℕ) : ℚ) = 2 ^ 64 ∧
    real2_value (2 ^ 64 - 1) = (2 ^ 53 - 1) / 2 ^ 53 ∧
    (∀ g : State, genrand_real2 g = (real2_value (genrand_uint64 g).1, (genrand_uint64 g).2))) :=
  ⟨by decide, real2_half_open (2 ^ 64 - 1) (by decide)⟩

/-- C13: for every 64-bit word `x`, the value of `genrand_real1` lies in `[0, 1]`; the
constant is `2^-64`, the word 0 gives exactly 0 and the word `2^64 - 1` gives exactly 1. -/
theorem real1_closed (x : ℕ) (hx : x < 2 ^ 64) :
    0 ≤ real1_value x ∧ real1_value x ≤ 1 ∧
    to_double (5421010862427522170 / 10 ^ 38) = 1 / 2 ^ 64 ∧
    real1_value 0 = 0 ∧ real1_value (2 ^ 64 - 1) = 1 ∧
    (∀ g : State, genrand_real1 g = (real1_value (genrand_uint64 g).1, (genrand_uint64 g).2)) := by
  have hd0 : (0 : ℚ) ≤ to_double (x : ℚ) := to_double_nonneg (Nat.cast_nonneg x)
  have hd1 : to_double (x : ℚ) ≤ 2 ^ 64 := to_double_word_le hx
  have hone : to_double 1 = 1 := by
    have h := to_double_natCast 1 (by norm_num)
    simpa using h
  refine ⟨?_, ?_, const_real1, ?_, ?_, fun _ => rfl⟩
  · unfold real1_value
    rw [const_real1]
    exact to_double_nonneg (mul_nonneg (by norm_num) hd0)
  · unfold real1_value
    rw [const_real1]
    have hle : 1 / 2 ^ 64 * to_double (x : ℚ) ≤ ((1 : ℕ) : ℚ) * 2 ^ (0 : ℤ) := by
      calc 1 / 2 ^ 64 * to_double (x : ℚ)
          ≤ 1 / 2 ^ 64 * 2 ^ 64 := mul_le_mul_of_nonneg_left hd1 (by norm_num)
        _ = ((1 : ℕ) : ℚ) * 2 ^ (0 : ℤ) := by norm_num
    have h := to_double_le_of_le_repr (mul_nonneg (by norm_num) hd0) hle (by norm_num)
      (by norm_num)
    simpa using h
  · unfold real1_value
    rw [Nat.cast_zero, to_double_zero, mul_zero, to_double_zero]
  · unfold real1_value
    rw [const_real1, to_double_max]
    have e : (1 : ℚ) / 2 ^ 64 * 2 ^ 64 = 1 := by norm_num
    rw [e, hone]

theorem real1_closed_witness :
    (2 ^ 64 - 1 < 2 ^ 64) ∧
    (0 ≤ real1_value (2 ^ 64 - 1) ∧ real1_value (2 ^ 64 - 1) ≤ 1 ∧
    to_double (5421010862427522170 / 10 ^ 38) = 1 / 2 ^ 64 ∧
    real1_value 0 = 0 ∧ real1_value (2 ^ 64 - 1) = 1 ∧
    (∀ g : State, genrand_real1 g = (real1_value (genrand_uint64 g).1, (genrand_uint64 g).2))) :=
  ⟨by decide, real1_closed (2 ^ 64 - 1) (by decide)⟩

/-! ## The first word of a stream -/

theorem draw_n_state_of_le (mt : Words) (n : Nat) (hn : n ≤ 312) :
    (draw_n n ⟨mt, 0⟩).2 = ⟨mt, n⟩ := by
  rw [draw_n_of_le mt n 0 (by show 0 + n ≤ 312; omega), Nat.zero_add]

theorem draw_313_state (mt : Words) : (draw_n 313 ⟨mt, 0⟩).2 = ⟨twist mt, 1⟩ := by
  rw [draw_n_add_state 312 1, draw_n_state_of_le mt 312 (Nat.le_refl 312), draw_one_state,
    genrand_uint64_at_NN, forward_state_seeded mt NN (Nat.le_refl NN)]

/-- Two generators at cursor 0 whose arrays agree except in the low 31 bits of `mt[0]`
return the same values from the second draw on. -/
theorem nth_output_eq_of_agree (a b : Words) (h0 : rd a 0 >>> 31 = rd b 0 >>> 31)
    (h : ∀ i, 1 ≤ i → i < 312 → rd a i = rd b i) (n : Nat) (hn : 1 ≤ n) :
    nth_output n ⟨a, 0⟩ = nth_output n ⟨b, 0⟩ := by
  have ht : twist a = twist b := by
    rw [twist_eq_modTwist, twist_eq_modTwist, modTwist_eq_of_agree a b h0 h]
  unfold nth_output
  by_cases h1 : n < 312
  · rw [draw_n_state_of_le a n (by omega), draw_n_state_of_le b n (by omega),
      genrand_uint64_of_lt a n h1, genrand_uint64_of_lt b n h1, h n hn h1]
  · by_cases h2 : n = 312
    · rw [h2, draw_n_state_of_le a 312 (Nat.le_refl _), draw_n_state_of_le b 312 (Nat.le_refl _),
        genrand_uint64_at_NN, genrand_uint64_at_NN, forward_state_seeded a NN (Nat.le_refl NN),
        forward_state_seeded b NN (Nat.le_refl NN), ht]
    · have e : n = 313 + (n - 313) := by omega
      rw [e, draw_n_add_state 313, draw_n_add_state 313, draw_313_state, draw_313_state, ht]

/-- The value of the first draw at cursor 0 depends on the low 31 bits of `mt[0]`, which no
later value depends on; so of two such generators whose first values differ, not both
output sequences repeat from the very first value with the same period. -/
theorem not_both_purely_periodic (a b : Words) (h0 : rd a 0 >>> 31 = rd b 0 >>> 31)
    (h : ∀ i, 1 ≤ i → i < 312 → rd a i = rd b i)
    (hd : tempering (rd a 0) ≠ tempering (rd b 0)) (P : Nat) (hP : 1 ≤ P) :
    ¬ ((∀ n, nth_output (n + P) ⟨a, 0⟩ = nth_output n ⟨a, 0⟩)
        ∧ (∀ n, nth_output (n + P) ⟨b, 0⟩ = nth_output n ⟨b, 0⟩)) := by
  rintro ⟨pa, pb⟩
  apply hd
  have e0 : ∀ w : Words, nth_output 0 ⟨w, 0⟩ = tempering (rd w 0) := fun w => by
    unfold nth_output
    rw [draw_n_state_of_le w 0 (Nat.zero_le _), genrand_uint64_of_lt w 0 (by decide)]
  rw [← e0 a, ← e0 b, ← pa 0, ← pb 0, Nat.zero_add]
  exact nth_output_eq_of_agree a b h0 h P hP

end MT64
